import Mathlib

/-!
asio-semaphore: the intrusive queue and the semaphore protocol

A shallow embedding of `details/nullary_op.hpp` and `semaphore.hpp`.

* Memory is a `Heap`: the `next_` link of every `op_base` object (the sentinel
  embedded in a queue object, or a heap-allocated node) and the `back_` pointer
  of every queue object.  A pointer is an `Option Addr`, `none` being `nullptr`.
  Dereferencing `nullptr` is a fault (`none`).  Which nodes have been released
  is not recorded in memory: a store through a pointer to a released node (the
  stale `back_`) is a plain store to a link that nothing reads again.  The one
  place where the code loads the link of a node it has just released, the loop
  of `~queue()`, is a fault.
* Deferred operations are identified by allocation: `Addr.node h` is the node
  that `make_nullary_op` builds for the completion handler `h`.
* The atomic counter `n_` is a natural number; additions are taken modulo
  `2 ^ 64` (`std::size_t`).  Calls are executed one after the other, so a
  compare-exchange whose expected value was just loaded succeeds.
* What a call does to the outside world is appended to a log of `Event`s.
* Loops without a syntactic bound take a fuel argument and give `none` when the
  fuel runs out.
* The part of `post()`, `post(n)` and `async_wait` that runs under the mutex is
  a definition of its own (`post_locked`, `post_n_locked`, `async_wait_locked`),
  so that an execution in which another call runs between the fast path and
  the lock is the composition of these parts.
-/

namespace details

/-- Address of an `op_base` object: the `sentinel_` member of queue object `q`,
or the heap node allocated for handler `i`. -/
inductive Addr where
  | sentinel (q : Nat)
  | node (i : Nat)
  deriving DecidableEq, Repr

/-- An `op_base*`; `none` is `nullptr`. -/
abbrev Ptr := Option Addr

/-- The memory the queues work on: `next_` of every `op_base`, `back_` of every
queue object. -/
structure Heap where
  next_ : Addr → Ptr
  back_ : Nat → Ptr

/-- The store `a->next_ = v`. -/
def Heap.store_next (m : Heap) (a : Addr) (v : Ptr) : Heap :=
  { next_ := fun x => if x = a then v else m.next_ x, back_ := m.back_ }

/-- The store `q.back_ = v`. -/
def Heap.store_back (m : Heap) (q : Nat) (v : Ptr) : Heap :=
  { next_ := m.next_, back_ := fun x => if x = q then v else m.back_ x }

/-- Memory before any object has been constructed. -/
def Heap.init : Heap :=
  { next_ := fun _ => none, back_ := fun _ => none }

/-- What a call does to the outside world: the mutex is locked or unlocked, the
handler `h` is handed to the executor directly, the deferred operation for `h`
is created, `complete()` or `destroy()` is called on an operation. -/
inductive Event where
  | lock
  | unlock
  | execute (h : Nat)
  | make_op (h : Nat)
  | complete (a : Addr)
  | destroy (a : Addr)
  deriving DecidableEq, Repr

namespace queue_base

/-- The constructor `queue_base()`: `sentinel_.next_ = nullptr; back_ = &sentinel_`. -/
def ctor (m : Heap) (q : Nat) : Heap :=
  (m.store_next (.sentinel q) none).store_back q (some (.sentinel q))

/-- The member `empty()`: `sentinel_.next_ == nullptr`. -/
def empty (m : Heap) (q : Nat) : Bool :=
  (m.next_ (.sentinel q)).isNone

/-- The member `head()`: `sentinel_.next_`. -/
def head (m : Heap) (q : Nat) : Ptr :=
  m.next_ (.sentinel q)

/-- The member `push(op)`: `back_->next_ = op; back_ = op`.  A null `back_` is a fault. -/
def push (m : Heap) (q : Nat) (op : Ptr) : Option Heap :=
  match m.back_ q with
  | none => none
  | some b => some ((m.store_next b op).store_back q op)

/-- The member `pop()`: null when `empty()`, otherwise
`p = exchange(sentinel_.next_, sentinel_.next_->next_); p->next_ = nullptr; return p`.
`back_` is not written. -/
def pop (m : Heap) (q : Nat) : Ptr × Heap :=
  match m.next_ (.sentinel q) with
  | none => (none, m)
  | some p =>
    let m1 := m.store_next (.sentinel q) (m.next_ p)
    (some p, m1.store_next p none)

end queue_base

namespace nullary_op_base

/-- The member `complete()`: `func_(this, true)`, which runs the stored
continuation once and releases the node. -/
def complete (log : List Event) (p : Addr) : List Event :=
  log ++ [Event.complete p]

/-- The member `destroy()`: `func_(this, false)`, which releases the node
without running the continuation. -/
def destroy (log : List Event) (p : Addr) : List Event :=
  log ++ [Event.destroy p]

end nullary_op_base

/-- How a destructor ends: it finishes, or it faults; in both cases with the
events logged up to that point. -/
inductive teardown where
  | finished (log : List Event)
  | fault (log : List Event)
  deriving DecidableEq, Repr

namespace queue

/-- The loop of `~queue()`: `for(auto p = head(); p; p = p->next_) d(p)`.  With
`p` null the loop ends.  Otherwise the deleter `d` calls `p->destroy()`, which
destroys and deallocates the node, and the step `p = p->next_` then loads the
link of the node just released: a use after free, which is a fault. -/
def dtor_loop : Ptr → List Event → teardown
  | none, log => .finished log
  | some p, log => .fault (nullary_op_base.destroy log p)

/-- The destructor `~queue()`. -/
def dtor (m : Heap) (q : Nat) (log : List Event) : teardown :=
  dtor_loop (queue_base.head m q) log

/-- The loop of `~queue()` in an execution where the load from the released
node does not trap but yields `link p`, the word the allocator left at the
start of the released block; the allocator is outside the repository, so
`link` is a parameter.  Gives the events logged. -/
def dtor_loop_reading (link : Addr → Ptr) : Nat → Ptr → List Event → Option (List Event)
  | _, none, log => some log
  | 0, some _, _ => none
  | fuel + 1, some p, log =>
    dtor_loop_reading link fuel (link p) (nullary_op_base.destroy log p)

end queue

/-- How the allocation and construction inside `make_nullary_op` turn out. -/
inductive alloc_outcome where
  | ok
  | allocate_throws
  | construct_throws
  deriving DecidableEq, Repr

/-- The function `make_nullary_op(fn, alloc)`: allocate, construct (the
constructor sets `next_ = nullptr`), return the node; when construction throws
the block is deallocated and the exception rethrown.  `none` is a thrown
exception. -/
def make_nullary_op (m : Heap) (h : Nat) (o : alloc_outcome) : Option (Addr × Heap) :=
  match o with
  | .ok => some (.node h, m.store_next (.node h) none)
  | .allocate_throws => none
  | .construct_throws => none

end details

open details

/-- The members of `semaphore` that carry state: the counter `n_`, the memory
holding `q_` and the nodes, and the log of events. -/
structure semaphore where
  n_ : Nat
  mem : Heap
  log : List Event

namespace semaphore

/-- Queue object of the member `q_`. -/
abbrev q_ : Nat := 0

/-- Queue object of the local variable `ops`. -/
abbrev ops : Nat := 1

/-- Range of `std::size_t`. -/
abbrev SIZE : Nat := 2 ^ 64

/-- Append an event to the log. -/
def emit (s : semaphore) (e : Event) : semaphore :=
  { s with log := s.log ++ [e] }

/-- The constructor `semaphore(ex, n)`: `n_(n)`, and `q_` default-constructed. -/
def ctor (n : Nat) : semaphore :=
  { n_ := n, mem := queue_base.ctor Heap.init q_, log := [] }

/-- The member `try_wait()`: load `n_`; while it is positive, compare-exchange it
with `n - 1` and return true on success; otherwise return false. -/
def try_wait (s : semaphore) : Bool × semaphore :=
  let n := s.n_
  if n > 0 then (true, { s with n_ := n - 1 }) else (false, s)

/-- The member `try_post_fast_path(x)`: load `n_`; while it is positive,
compare-exchange it with `n + x` and return true on success; otherwise false. -/
def try_post_fast_path (s : semaphore) (x : Nat) : Bool × semaphore :=
  let n := s.n_
  if n > 0 then (true, { s with n_ := (n + x) % SIZE }) else (false, s)

/-- The loop `while(auto p = ops.pop()) p->complete()`. -/
def drain : Nat → semaphore → Option semaphore
  | 0, _ => none
  | fuel + 1, s =>
    match queue_base.pop s.mem ops with
    | (none, m) => some { s with mem := m }
    | (some p, m) =>
      drain fuel { s with mem := m, log := nullary_op_base.complete s.log p }

/-- The end of the scope of the local `ops`: its destructor runs. -/
def ops_dtor (s : semaphore) : Option semaphore :=
  match queue.dtor s.mem ops s.log with
  | .fault _ => none
  | .finished l => some { s with log := l }

/-- The part of `post()` after the fast path, from `std::unique_lock lock(mutex_)`
on.  A failed `assert` is a fault. -/
def post_locked (s : semaphore) : Option semaphore :=
  let s2 := s.emit .lock
  match queue_base.pop s2.mem q_ with
  | (some op, m) =>
    let s3 := { s2 with mem := m }.emit .unlock
    some { s3 with log := nullary_op_base.complete s3.log op }
  | (none, m) =>
    let s3 : semaphore := { s2 with mem := m, n_ := (s2.n_ + 1) % SIZE }
    if queue_base.empty s3.mem q_ && s3.n_ == 1 then some (s3.emit .unlock) else none

/-- The member `post()`. -/
def post (s : semaphore) : Option semaphore :=
  match try_post_fast_path s 1 with
  | (true, s1) => some s1
  | (false, s1) => post_locked s1

/-- The loop of `post(n)` under the lock:
`while(n > 0) { op = q_.pop(); if(!op) break; --n; ops.push(op); }`.
Gives the remaining `n`. -/
def post_n_loop : Nat → Heap → Option (Nat × Heap)
  | 0, m => some (0, m)
  | n + 1, m =>
    match queue_base.pop m q_ with
    | (none, m1) => some (n + 1, m1)
    | (some op, m1) =>
      match queue_base.push m1 ops (some op) with
      | none => none
      | some m2 => post_n_loop n m2

/-- The part of `post(n)` after the fast path, from the declaration of `ops` on.
A failed `assert` is a fault. -/
def post_n_locked (fuel : Nat) (s : semaphore) (n : Nat) : Option semaphore :=
  let s2 := { s with mem := queue_base.ctor s.mem ops }.emit .lock
  match post_n_loop n s2.mem with
  | none => none
  | some (n1, m) =>
    let s3 : semaphore := { s2 with mem := m }
    let s4 : Option semaphore :=
      if n1 > 0 then
        let s := { s3 with n_ := (s3.n_ + n1) % SIZE }
        if queue_base.empty s.mem q_ || decide (s.n_ > 0) then some s else none
      else some s3
    match s4 with
    | none => none
    | some s5 =>
      match drain fuel (s5.emit .unlock) with
      | none => none
      | some s6 => ops_dtor s6

/-- The member `post(std::size_t n)`. -/
def post_n (fuel : Nat) (s : semaphore) (n : Nat) : Option semaphore :=
  if n = 0 then some s else
  match try_post_fast_path s n with
  | (true, s1) => some s1
  | (false, s1) => post_n_locked fuel s1 n

/-- The call `n_.compare_exchange_weak(expected, desired)` on a counter holding
`cur`: success, the counter afterwards, `expected` afterwards. -/
def compare_exchange (cur expected desired : Nat) : Bool × Nat × Nat :=
  if cur = expected then (true, desired, expected) else (false, cur, cur)

/-- The loop of `async_wait` under the lock, `n` being the local copy of the counter:
`while(n > 0 && !q_.empty()) { if(n_.compare_exchange_weak(n, n - 1)) { op = q_.pop(); ops.push(op); } }`. -/
def async_wait_loop : Nat → Nat → semaphore → Option semaphore
  | 0, _, _ => none
  | fuel + 1, n, s =>
    if n > 0 && !queue_base.empty s.mem q_ then
      match compare_exchange s.n_ n (n - 1) with
      | (true, cur, n1) =>
        let r := queue_base.pop s.mem q_
        match queue_base.push r.2 ops r.1 with
        | none => none
        | some m => async_wait_loop fuel n1 { s with n_ := cur, mem := m }
      | (false, cur, n1) => async_wait_loop fuel n1 { s with n_ := cur }
    else some s

/-- How a call ends: it returns, it returns a boolean, or it throws. -/
inductive Ret where
  | done
  | value (b : Bool)
  | threw
  deriving DecidableEq, Repr

/-- The part of `async_wait` from `std::unique_lock lock(mutex_)` on, `op` being
the deferred operation just built. -/
def async_wait_locked (fuel : Nat) (s : semaphore) (op : Addr) : Option semaphore :=
  let s2 := s.emit .lock
  match queue_base.push s2.mem q_ (some op) with
  | none => none
  | some m1 =>
    let s3 : semaphore := { s2 with mem := queue_base.ctor m1 ops }
    match async_wait_loop fuel s3.n_ s3 with
    | none => none
    | some s4 =>
      match drain fuel (s4.emit .unlock) with
      | none => none
      | some s5 => ops_dtor s5

/-- The initiation of `async_wait` for the completion handler `h`; `o` is how
`make_nullary_op` turns out if it is reached. -/
def async_wait (fuel : Nat) (s : semaphore) (h : Nat) (o : alloc_outcome) :
    Option (Ret × semaphore) :=
  match try_wait s with
  | (true, s1) => some (.done, s1.emit (.execute h))
  | (false, s1) =>
    match make_nullary_op s1.mem h o with
    | none => some (.threw, s1)
    | some (op, m0) =>
      match async_wait_locked fuel ({ s1 with mem := m0 }.emit (.make_op h)) op with
      | none => none
      | some s2 => some (.done, s2)

/-- The destructor of the semaphore: the member `q_` is destroyed. -/
def dtor (s : semaphore) : teardown :=
  queue.dtor s.mem q_ s.log

/-- A call of a public member. -/
inductive Call where
  | post
  | post_n (k : Nat)
  | try_wait
  | async_wait (h : Nat) (o : alloc_outcome)
  deriving DecidableEq, Repr

/-- One call. -/
def step (fuel : Nat) (s : semaphore) : Call → Option (Ret × semaphore)
  | .post => (post s).map fun s1 => (Ret.done, s1)
  | .post_n k => (post_n fuel s k).map fun s1 => (Ret.done, s1)
  | .try_wait => some (Ret.value (try_wait s).1, (try_wait s).2)
  | .async_wait h o => async_wait fuel s h o

/-- A sequence of calls, one after the other, with what each returned. -/
def run (fuel : Nat) : List Call → semaphore → Option (List Ret × semaphore)
  | [], s => some ([], s)
  | c :: cs, s =>
    match step fuel s c with
    | none => none
    | some (r, s1) =>
      match run fuel cs s1 with
      | none => none
      | some (rs, s2) => some (r :: rs, s2)

/-- Sequential calls of `try_wait()`, collecting the results. -/
def try_wait_times : Nat → semaphore → List Bool × semaphore
  | 0, s => ([], s)
  | k + 1, s =>
    let r := try_wait s
    let rs := try_wait_times k r.2
    (r.1 :: rs.1, rs.2)

end semaphore

/-! ## Concrete states -/

/-- A semaphore with counter 0 whose queue holds the nodes 1 and 2, as two
`async_wait` calls on a fresh semaphore leave it. -/
def two_waiters : semaphore :=
  { n_ := 0,
    mem := { next_ := fun x => if x = .sentinel 0 then some (.node 1)
                               else if x = .node 1 then some (.node 2) else none,
             back_ := fun q => if q = 0 then some (.node 2) else none },
    log := [] }

/-! ## Chains of nodes -/

/-- Following `next_` from `p` visits exactly the nodes `l` and then reaches `nullptr`. -/
def holds (m : Heap) : Addr → List Nat → Prop
  | p, [] => m.next_ p = none
  | p, a :: l => m.next_ p = some (.node a) ∧ holds m (.node a) l

/-- The predicate `holds` can be evaluated. -/
def holds.dec (m : Heap) : (p : Addr) → (l : List Nat) → Decidable (holds m p l)
  | p, [] => inferInstanceAs (Decidable (m.next_ p = none))
  | p, a :: l =>
    have := holds.dec m (.node a) l
    inferInstanceAs (Decidable (m.next_ p = some (.node a) ∧ holds m (.node a) l))

instance (m : Heap) (p : Addr) (l : List Nat) : Decidable (holds m p l) := holds.dec m p l

/-- Queue object `q` holds the nodes `l`, front first. -/
def queue_holds (m : Heap) (q : Nat) (l : List Nat) : Prop :=
  holds m (.sentinel q) l

instance (m : Heap) (q : Nat) (l : List Nat) : Decidable (queue_holds m q l) :=
  holds.dec m (.sentinel q) l

/-- The last object of the chain that starts at `p` and visits `l`. -/
def chain_end (p : Addr) : List Nat → Addr
  | [] => p
  | a :: l => chain_end (.node a) l

/-! ## Summary of a sequential execution

The effect of the calls on what the claims observe, stated on lists; it is
related to the embedding of the code by `summarised_by` and `step_sim` below. -/

/-- What is observable of a semaphore state: the counter, the nodes linked from
the sentinel of `q_`, whether `back_` points to the last of them (to the
sentinel when there is none), and the log. -/
structure Abs where
  c : Nat
  q : List Nat
  valid : Bool
  log : List Event

namespace Abs

/-- Summary of the constructor. -/
def init (n : Nat) : Abs :=
  { c := n, q := [], valid := true, log := [] }

/-- Summary of `post()`. -/
def post (a : Abs) : Abs :=
  if a.c > 0 then { a with c := (a.c + 1) % semaphore.SIZE }
  else
    match a.q with
    | [] => { a with c := (a.c + 1) % semaphore.SIZE, log := a.log ++ [.lock, .unlock] }
    | h :: t =>
      { a with q := t, valid := a.valid && !t.isEmpty,
               log := a.log ++ [.lock, .unlock, .complete (.node h)] }

/-- Summary of `post(k)`. -/
def post_n (a : Abs) (k : Nat) : Abs :=
  if k = 0 then a
  else if a.c > 0 then { a with c := (a.c + k) % semaphore.SIZE }
  else
    { c := if 0 < k - min k a.q.length then (a.c + (k - min k a.q.length)) % semaphore.SIZE
           else a.c,
      q := a.q.drop k,
      valid := a.valid && (a.q.isEmpty || !(a.q.drop k).isEmpty),
      log := a.log ++ [.lock, .unlock] ++ (a.q.take k).map (fun x => Event.complete (.node x)) }

/-- Summary of `try_wait()`. -/
def try_wait (a : Abs) : Bool × Abs :=
  if a.c > 0 then (true, { a with c := a.c - 1 }) else (false, a)

/-- Summary of `async_wait`. -/
def async_wait (a : Abs) (h : Nat) (o : alloc_outcome) : semaphore.Ret × Abs :=
  if a.c > 0 then (.done, { a with c := a.c - 1, log := a.log ++ [.execute h] })
  else if o = .ok then
    (.done, { a with q := if a.valid then a.q ++ [h] else [],
                     log := a.log ++ [.make_op h, .lock, .unlock] })
  else (.threw, a)

/-- Summary of one call. -/
def step (a : Abs) : semaphore.Call → semaphore.Ret × Abs
  | .post => (.done, a.post)
  | .post_n k => (.done, a.post_n k)
  | .try_wait => (.value a.try_wait.1, a.try_wait.2)
  | .async_wait h o => a.async_wait h o

/-- Summary of a sequence of calls. -/
def run : List semaphore.Call → Abs → List semaphore.Ret × Abs
  | [], a => ([], a)
  | c :: cs, a => ((a.step c).1 :: (run cs (a.step c).2).1, (run cs (a.step c).2).2)

end Abs

/-- The state `s` of the embedding is summarised by `a`. -/
def summarised_by (s : semaphore) (a : Abs) : Prop :=
  s.n_ = a.c ∧ s.log = a.log ∧ holds s.mem (.sentinel semaphore.q_) a.q ∧
  (a.valid = true → s.mem.back_ semaphore.q_ = some (chain_end (.sentinel semaphore.q_) a.q)) ∧
  (a.valid = false → a.q = [] ∧ ∃ i, s.mem.back_ semaphore.q_ = some (.node i))

/-- The handlers of the `async_wait` calls of a sequence, in call order. -/
def handlers : List semaphore.Call → List Nat
  | [] => []
  | .async_wait h _ :: cs => h :: handlers cs
  | _ :: cs => handlers cs

/-- The permits posted by a sequence of calls, `post()` counting 1. -/
def posted : List semaphore.Call → Nat
  | [] => 0
  | .post :: cs => 1 + posted cs
  | .post_n k :: cs => k + posted cs
  | _ :: cs => posted cs

/-- The number of `try_wait()` calls that returned true. -/
def claimed : List semaphore.Ret → Nat
  | [] => 0
  | .value true :: l => 1 + claimed l
  | _ :: l => claimed l

/-- The operations `complete()` was called on, in call order. -/
def completed : List Event → List Addr
  | [] => []
  | .complete a :: l => a :: completed l
  | _ :: l => completed l

/-- The operations `destroy()` was called on, in call order. -/
def destroyed : List Event → List Addr
  | [] => []
  | .destroy a :: l => a :: destroyed l
  | _ :: l => destroyed l

/-- The deferred operations created, in order; each is pushed onto `q_` right
after its creation. -/
def enqueued : List Event → List Addr
  | [] => []
  | .make_op h :: l => .node h :: enqueued l
  | _ :: l => enqueued l

/-- The waiters that are suspended: the operations created and pushed that
have been neither completed nor destroyed. -/
def pending (log : List Event) : List Addr :=
  (enqueued log).filter fun a => !(completed log).contains a && !(destroyed log).contains a

/-- The handlers handed to the executor on the fast path of `async_wait`. -/
def executed : List Event → List Nat
  | [] => []
  | .execute h :: l => h :: executed l
  | _ :: l => executed l

/-- What the summary keeps of the order of waiters: while `back_` is right, the
operations created are exactly those completed followed by those queued; once
it is stale, nothing is queued and those completed are the first ones created. -/
def Abs.fifo (a : Abs) : Prop :=
  (a.valid = true → completed a.log ++ a.q.map Addr.node = enqueued a.log) ∧
  (a.valid = false → a.q = [] ∧ completed a.log <+: enqueued a.log)

/-! ## Splice and move -/

namespace details

namespace queue_base

/-- The member `splice(q)`: nothing when `q.empty()`, otherwise
`back_->next_ = exchange(q.sentinel_.next_, nullptr); back_ = exchange(q.back_, &q.sentinel_)`.
A null `back_` is a fault. -/
def splice (m : Heap) (q other : Nat) : Option Heap :=
  if empty m other then some m
  else
    match m.back_ q with
    | none => none
    | some b =>
      let first := m.next_ (.sentinel other)
      let m1 := (m.store_next (.sentinel other) none).store_next b first
      let last := m1.back_ other
      some ((m1.store_back other (some (.sentinel other))).store_back q last)

/-- The move constructor `queue_base(queue_base&& other)`, building object `q`:
`sentinel_.next_ = exchange(other.sentinel_.next_, nullptr); back_ = exchange(other.back_, nullptr)`. -/
def move_ctor (m : Heap) (q other : Nat) : Heap :=
  let first := m.next_ (.sentinel other)
  let m1 := (m.store_next (.sentinel other) none).store_next (.sentinel q) first
  let last := m1.back_ other
  (m1.store_back other none).store_back q last

/-- The move assignment `operator=(queue_base&& other)` on object `q`, `tmp` being
the local object: `tmp(std::move(other)); swap(sentinel_.next_, tmp.sentinel_.next_);
swap(back_, tmp.back_)`. -/
def move_assign (m : Heap) (q other tmp : Nat) : Heap :=
  let m1 := move_ctor m tmp other
  let a := m1.next_ (.sentinel q)
  let b := m1.next_ (.sentinel tmp)
  let m2 := (m1.store_next (.sentinel q) b).store_next (.sentinel tmp) a
  let c := m2.back_ q
  let d := m2.back_ tmp
  (m2.store_back q d).store_back tmp c

end queue_base

end details

/-- Queue object `q` holds the nodes `l` and its `back_` points to the last of
them, to its own sentinel when there is none: the state that the constructor
and pushes of distinct nodes produce. -/
def queue_built (m : Heap) (q : Nat) (l : List Nat) : Prop :=
  queue_holds m q l ∧ m.back_ q = some (chain_end (.sentinel q) l)

instance (m : Heap) (q : Nat) (l : List Nat) : Decidable (queue_built m q l) :=
  inferInstanceAs (Decidable (queue_holds m q l ∧ m.back_ q = some (chain_end (.sentinel q) l)))

/-- Two queue objects built by pushes onto fresh queues: object 0 holds the
nodes 1 and 2, object 1 holds the node 3. -/
def two_queues : Heap :=
  Option.getD
    (((queue_base.push (queue_base.ctor (queue_base.ctor Heap.init 0) 1) 0 (some (.node 1))).bind
        (fun m => queue_base.push m 0 (some (.node 2)))).bind
      (fun m => queue_base.push m 1 (some (.node 3))))
    Heap.init

/-- Scanning a trace with `held` telling whether the mutex is held: no
`complete()` is called while it is held. -/
def no_complete_under_lock : Bool → List Event → Bool
  | _, [] => true
  | _, .lock :: l => no_complete_under_lock true l
  | _, .unlock :: l => no_complete_under_lock false l
  | held, .complete _ :: l => !held && no_complete_under_lock held l
  | held, _ :: l => no_complete_under_lock held l

/-- What the loop of `async_wait` reaches from counter `c` with `l` in `q_` and
`d` in `ops`: the first `min c |l|` nodes are moved to `ops`, the counter is
decreased by as many. -/
def loop_result (s : semaphore) (l d : List Nat) (r : Option semaphore) : Prop :=
  ∃ m1, r = some { n_ := s.n_ - min s.n_ l.length, mem := m1, log := s.log } ∧
    holds m1 (.sentinel semaphore.q_) (l.drop (min s.n_ l.length)) ∧
    holds m1 (.sentinel semaphore.ops) (d ++ l.take (min s.n_ l.length)) ∧
    m1.back_ semaphore.ops =
      some (chain_end (.sentinel semaphore.ops) (d ++ l.take (min s.n_ l.length))) ∧
    m1.back_ semaphore.q_ = s.mem.back_ semaphore.q_

/-- The shapes of `q_` that sequences of calls lead to: built, or empty with
`back_` left pointing at a node that was popped. -/
def queue_reached (m : Heap) (l : List Nat) : Prop :=
  queue_holds m semaphore.q_ l ∧
  (m.back_ semaphore.q_ = some (chain_end (.sentinel semaphore.q_) l) ∨
    (l = [] ∧ ∃ i, m.back_ semaphore.q_ = some (.node i)))

/-! ## Memory lemmas -/

@[simp] theorem store_next_next (m : Heap) (a : Addr) (v : Ptr) (x : Addr) :
    (m.store_next a v).next_ x = if x = a then v else m.next_ x := rfl

@[simp] theorem store_next_back (m : Heap) (a : Addr) (v : Ptr) :
    (m.store_next a v).back_ = m.back_ := rfl

@[simp] theorem store_back_next (m : Heap) (q : Nat) (v : Ptr) :
    (m.store_back q v).next_ = m.next_ := rfl

@[simp] theorem store_back_back (m : Heap) (q : Nat) (v : Ptr) (x : Nat) :
    (m.store_back q v).back_ x = if x = q then v else m.back_ x := rfl

theorem holds_congr (m m1 : Heap) (p : Addr) (l : List Nat)
    (hp : m1.next_ p = m.next_ p) (hl : ∀ x ∈ l, m1.next_ (.node x) = m.next_ (.node x))
    (h : holds m p l) : holds m1 p l := by
  induction l generalizing p with
  | nil => simpa [holds, hp] using h
  | cons a l ih =>
    obtain ⟨h1, h2⟩ := h
    refine ⟨by rw [hp, h1], ih (.node a) (hl a (by simp)) (fun x hx => hl x (by simp [hx])) h2⟩

theorem holds_functional (m : Heap) (p : Addr) (l1 l2 : List Nat)
    (h1 : holds m p l1) (h2 : holds m p l2) : l1 = l2 := by
  induction l1 generalizing p l2 with
  | nil =>
    cases l2 with
    | nil => rfl
    | cons b l2 => simp [holds] at h1 h2; rw [h1] at h2; exact absurd h2.1 (by simp)
  | cons a l1 ih =>
    cases l2 with
    | nil => simp [holds] at h1 h2; rw [h2] at h1; exact absurd h1.1 (by simp)
    | cons b l2 =>
      obtain ⟨ha, hl1⟩ := h1
      obtain ⟨hb, hl2⟩ := h2
      rw [ha] at hb
      have hab : a = b := by simpa using hb
      subst hab
      rw [ih (.node a) l2 hl1 hl2]

theorem holds_suffix (m : Heap) (p : Addr) (l1 : List Nat) (a : Nat) (l2 : List Nat)
    (h : holds m p (l1 ++ a :: l2)) : holds m (.node a) l2 := by
  induction l1 generalizing p with
  | nil => exact h.2
  | cons b l1 ih => exact ih (.node b) h.2

theorem holds_not_mem (m : Heap) (a : Nat) (l : List Nat) (h : holds m (.node a) l) :
    a ∉ l := by
  intro hmem
  obtain ⟨l1, l2, rfl⟩ := List.append_of_mem hmem
  have h2 := holds_suffix m (.node a) l1 a l2 h
  have := holds_functional m (.node a) _ _ h h2
  have hlen := congrArg List.length this
  simp at hlen
  omega

theorem holds_nodup (m : Heap) (p : Addr) (l : List Nat) (h : holds m p l) : l.Nodup := by
  induction l generalizing p with
  | nil => exact List.nodup_nil
  | cons a l ih =>
    exact List.nodup_cons.mpr ⟨holds_not_mem m a l h.2, ih (.node a) h.2⟩

theorem chain_end_cases (p : Addr) (l : List Nat) :
    chain_end p l = p ∨ ∃ x ∈ l, chain_end p l = .node x := by
  induction l generalizing p with
  | nil => exact Or.inl rfl
  | cons a l ih =>
    rcases ih (.node a) with h | ⟨x, hx, h⟩
    · exact Or.inr ⟨a, by simp, by simpa [chain_end] using h⟩
    · exact Or.inr ⟨x, by simp [hx], by simpa [chain_end] using h⟩

theorem chain_end_snoc (p : Addr) (l : List Nat) (a : Nat) :
    chain_end p (l ++ [a]) = .node a := by
  induction l generalizing p with
  | nil => rfl
  | cons b l ih => simpa [chain_end] using ih (.node b)

theorem holds_snoc (m : Heap) (p : Addr) (l : List Nat) (a : Nat)
    (h : holds m p l) (ha : a ∉ l) (hp : p ≠ .node a) (hn : m.next_ (.node a) = none) :
    holds (m.store_next (chain_end p l) (some (.node a))) p (l ++ [a]) := by
  induction l generalizing p with
  | nil =>
    refine ⟨by simp [chain_end], ?_⟩
    simp [holds, chain_end, Ne.symm hp, hn]
  | cons b l ih =>
    obtain ⟨h1, h2⟩ := h
    have hb : b ≠ a := fun e => ha (by simp [e])
    have hal : a ∉ l := fun e => ha (by simp [e])
    have hpe : p ≠ chain_end (.node b) l := by
      rcases chain_end_cases (.node b) l with e | ⟨x, hx, e⟩
      · rw [e]; intro e2; subst e2
        exact holds_not_mem m b (b :: l) ⟨h1, h2⟩ (by simp)
      · rw [e]; intro e2; subst e2
        exact holds_not_mem m x (b :: l) ⟨h1, h2⟩ (by simp [hx])
    refine ⟨?_, ih (.node b) h2 hal (by simpa using hb)⟩
    simp [chain_end, hpe, h1]

/-! ## The queue operations on chains -/

theorem pop_nil (m : Heap) (q : Nat) (h : holds m (.sentinel q) []) :
    queue_base.pop m q = (none, m) := by
  have h1 : m.next_ (.sentinel q) = none := h
  simp [queue_base.pop, h1]

theorem pop_cons (m : Heap) (q : Nat) (a : Nat) (l : List Nat)
    (h : holds m (.sentinel q) (a :: l)) :
    queue_base.pop m q =
      (some (.node a),
        (m.store_next (.sentinel q) (m.next_ (.node a))).store_next (.node a) none) := by
  have h1 : m.next_ (.sentinel q) = some (.node a) := h.1
  simp [queue_base.pop, h1]

theorem pop_cons_holds (m : Heap) (q : Nat) (a : Nat) (l : List Nat)
    (h : holds m (.sentinel q) (a :: l)) :
    holds ((m.store_next (.sentinel q) (m.next_ (.node a))).store_next (.node a) none)
      (.sentinel q) l := by
  have hnm := holds_not_mem m a l h.2
  cases l with
  | nil =>
    have h2 : m.next_ (.node a) = none := h.2
    simp [holds, h2]
  | cons b l =>
    obtain ⟨_, h2, h3⟩ := h
    have hba : b ≠ a := fun e => hnm (by simp [e])
    refine ⟨by simp [h2], holds_congr m _ (.node b) l (by simp [hba]) ?_ h3⟩
    intro x hx
    have hxa : x ≠ a := fun e => hnm (by simp [← e, hx])
    simp [hxa]

theorem pop_cons_frame (m : Heap) (q : Nat) (a : Nat) (p : Addr) (l : List Nat)
    (hp : p ≠ .sentinel q) (hpa : p ≠ .node a) (ha : a ∉ l) (h : holds m p l) :
    holds ((m.store_next (.sentinel q) (m.next_ (.node a))).store_next (.node a) none) p l := by
  refine holds_congr m _ p l (by simp [hp, hpa]) ?_ h
  intro x hx
  have hxa : x ≠ a := fun e => ha (by simpa [e] using hx)
  simp [hxa]

/-- The loop of `post(n)` moves the first `min n |l|` nodes of `q_` to the back of `ops`. -/
theorem post_n_loop_spec (n : Nat) (m : Heap) (l d : List Nat)
    (hl : holds m (.sentinel semaphore.q_) l) (hd : holds m (.sentinel semaphore.ops) d)
    (hb : m.back_ semaphore.ops = some (chain_end (.sentinel semaphore.ops) d))
    (hdis : ∀ x ∈ d, x ∉ l) :
    ∃ m1, semaphore.post_n_loop n m = some (n - min n l.length, m1) ∧
      holds m1 (.sentinel semaphore.q_) (l.drop n) ∧
      holds m1 (.sentinel semaphore.ops) (d ++ l.take n) ∧
      m1.back_ semaphore.ops = some (chain_end (.sentinel semaphore.ops) (d ++ l.take n)) ∧
      m1.back_ semaphore.q_ = m.back_ semaphore.q_ := by
  induction n generalizing m l d with
  | zero => exact ⟨m, by simp [semaphore.post_n_loop], by simpa using hl, by simpa using hd,
      by simpa using hb, rfl⟩
  | succ n ih =>
    cases l with
    | nil =>
      exact ⟨m, by simp [semaphore.post_n_loop, pop_nil m _ hl], by simpa using hl,
        by simpa using hd, by simpa using hb, rfl⟩
    | cons a l =>
      have hnd := holds_nodup m _ _ hl
      have hal : a ∉ l := (List.nodup_cons.mp hnd).1
      have had : a ∉ d := fun e => hdis a e (by simp)
      let m1 := (m.store_next (.sentinel semaphore.q_) (m.next_ (.node a))).store_next
        (.node a) none
      have hl1 : holds m1 (.sentinel semaphore.q_) l := pop_cons_holds m _ a l hl
      have hd1 : holds m1 (.sentinel semaphore.ops) d :=
        pop_cons_frame m _ a _ d (by simp) (by simp) had hd
      have hn1 : m1.next_ (.node a) = none := by simp [m1]
      have hb1 : m1.back_ semaphore.ops = some (chain_end (.sentinel semaphore.ops) d) := by
        simpa [m1] using hb
      let m2 := (m1.store_next (chain_end (.sentinel semaphore.ops) d)
        (some (.node a))).store_back semaphore.ops (some (.node a))
      have hpush : queue_base.push m1 semaphore.ops (some (.node a)) = some m2 := by
        simp [queue_base.push, hb1, m2]
      have hd2 : holds m2 (.sentinel semaphore.ops) (d ++ [a]) := by
        have := holds_snoc m1 _ d a hd1 had (by simp) hn1
        exact holds_congr (m1.store_next (chain_end (.sentinel semaphore.ops) d)
          (some (.node a))) m2 _ _ rfl (fun _ _ => rfl) this
      have hce : chain_end (.sentinel semaphore.ops) d ≠ .sentinel semaphore.q_ ∧
          ∀ x ∈ l, Addr.node x ≠ chain_end (.sentinel semaphore.ops) d := by
        rcases chain_end_cases (.sentinel semaphore.ops) d with e | ⟨y, hy, e⟩
        · rw [e]; exact ⟨by simp, fun x _ => by simp⟩
        · rw [e]
          refine ⟨by simp, fun x hx e2 => ?_⟩
          have : x = y := by simpa using e2
          subst this
          exact hdis x hy (by simp [hx])
      have hl2 : holds m2 (.sentinel semaphore.q_) l := by
        refine holds_congr m1 _ _ _ ?_ ?_ hl1
        · simp [m2, Ne.symm hce.1]
        · intro x hx
          simp [m2, hce.2 x hx]
      have hb2 : m2.back_ semaphore.ops = some (chain_end (.sentinel semaphore.ops) (d ++ [a])) := by
        simp [m2, chain_end_snoc]
      have hdis2 : ∀ x ∈ d ++ [a], x ∉ l := by
        intro x hx
        rcases List.mem_append.mp hx with h1 | h1
        · exact fun e => hdis x h1 (by simp [e])
        · have : x = a := by simpa using h1
          subst this; exact hal
      obtain ⟨m3, h3, h4, h5, h6, h7⟩ := ih m2 l (d ++ [a]) hl2 hd2 hb2 hdis2
      refine ⟨m3, ?_, by simpa using h4, by simpa using h5, by simpa using h6, ?_⟩
      · simp only [semaphore.post_n_loop, pop_cons m _ a l hl]
        show (match queue_base.push m1 semaphore.ops (some (.node a)) with
          | none => none
          | some m2 => semaphore.post_n_loop n m2) = _
        rw [hpush]
        simp only [h3, List.length_cons]
        congr 2
        omega
      · rw [h7]; simp [m2, m1]

/-- The loop `while(auto p = ops.pop()) p->complete()` completes the nodes of `ops`
in order and leaves every other chain alone. -/
theorem drain_spec (fuel : Nat) (s : semaphore) (d : List Nat)
    (hd : holds s.mem (.sentinel semaphore.ops) d) (hf : d.length + 1 ≤ fuel) :
    ∃ m1, semaphore.drain fuel s =
        some { s with mem := m1, log := s.log ++ d.map (fun a => Event.complete (.node a)) } ∧
      holds m1 (.sentinel semaphore.ops) [] ∧ m1.back_ = s.mem.back_ ∧
      ∀ (p : Addr) (l : List Nat), p ≠ .sentinel semaphore.ops → (∀ x ∈ d, p ≠ .node x) →
        (∀ x ∈ d, x ∉ l) → holds s.mem p l → holds m1 p l := by
  induction d generalizing fuel s with
  | nil =>
    obtain ⟨f, rfl⟩ : ∃ f, fuel = f + 1 := ⟨fuel - 1, by omega⟩
    refine ⟨s.mem, by simp [semaphore.drain, pop_nil _ _ hd], hd, rfl, fun _ _ _ _ _ h => h⟩
  | cons a d ih =>
    obtain ⟨f, rfl⟩ : ∃ f, fuel = f + 1 := ⟨fuel - 1, by omega⟩
    have had : a ∉ d := (List.nodup_cons.mp (holds_nodup _ _ _ hd)).1
    let m1 := (s.mem.store_next (.sentinel semaphore.ops) (s.mem.next_ (.node a))).store_next
      (.node a) none
    have hd1 : holds m1 (.sentinel semaphore.ops) d := pop_cons_holds s.mem _ a d hd
    obtain ⟨m2, h2, h3, h4, h5⟩ := ih f
      { s with mem := m1, log := nullary_op_base.complete s.log (.node a) } hd1
      (by simp at hf ⊢; omega)
    refine ⟨m2, ?_, h3, ?_, ?_⟩
    · simp only [semaphore.drain, pop_cons _ _ a d hd]
      rw [h2]
      simp [nullary_op_base.complete]
    · rw [h4]; simp [m1]
    · intro p l hp hpd hdl h
      refine h5 p l hp (fun x hx => hpd x (by simp [hx])) (fun x hx => hdl x (by simp [hx])) ?_
      exact pop_cons_frame s.mem _ a p l hp (hpd a (by simp)) (hdl a (by simp)) h

/-- The destructor of an empty queue finishes without an event. -/
theorem dtor_empty (m : Heap) (q : Nat) (log : List Event) (h : holds m (.sentinel q) []) :
    queue.dtor m q log = .finished log := by
  have h1 : m.next_ (.sentinel q) = none := h
  simp [queue.dtor, queue_base.head, h1, queue.dtor_loop]

/-- The destructor of a non-empty queue destroys the front node and faults on
the load of its link. -/
theorem dtor_nonempty (m : Heap) (q : Nat) (a : Nat) (l : List Nat) (log : List Event)
    (h : holds m (.sentinel q) (a :: l)) :
    queue.dtor m q log = .fault (log ++ [Event.destroy (.node a)]) := by
  have h1 : m.next_ (.sentinel q) = some (.node a) := h.1
  simp [queue.dtor, queue_base.head, h1, queue.dtor_loop, nullary_op_base.destroy]

theorem ops_dtor_empty (s : semaphore)
    (h : holds s.mem (.sentinel semaphore.ops) []) : semaphore.ops_dtor s = some s := by
  simp [semaphore.ops_dtor, dtor_empty _ _ _ h]

theorem ctor_ops_holds (m : Heap) (p : Addr) (l : List Nat) (hp : p ≠ .sentinel semaphore.ops)
    (h : holds m p l) : holds (queue_base.ctor m semaphore.ops) p l :=
  holds_congr m _ p l (by simp [queue_base.ctor, hp]) (fun x _ => by simp [queue_base.ctor]) h

theorem take_disjoint_drop (l : List Nat) (k : Nat) (h : l.Nodup) :
    ∀ x ∈ l.take k, x ∉ l.drop k := by
  intro x hx hx2
  have h2 : (l.take k ++ l.drop k).Nodup := by simpa using h
  exact (List.nodup_append.mp h2).2.2 hx hx2

/-- The locked part of `post(n)`: the first `min n |l|` waiters are completed in
order, the others stay queued, what is left of `n` is added to the counter. -/
theorem post_n_locked_spec (fuel : Nat) (s : semaphore) (l : List Nat) (k : Nat)
    (hq : holds s.mem (.sentinel semaphore.q_) l) (hf : min k l.length + 1 ≤ fuel) :
    ∃ m1, semaphore.post_n_locked fuel s k =
        some { n_ := if 0 < k - min k l.length then (s.n_ + (k - min k l.length)) % semaphore.SIZE
                     else s.n_,
               mem := m1,
               log := s.log ++ [Event.lock, Event.unlock] ++
                 (l.take k).map (fun a => Event.complete (.node a)) } ∧
      holds m1 (.sentinel semaphore.q_) (l.drop k) ∧
      m1.back_ semaphore.q_ = s.mem.back_ semaphore.q_ := by
  have hnd := holds_nodup _ _ _ hq
  obtain ⟨m1, h1, h2, h3, h4, h5⟩ := post_n_loop_spec k (queue_base.ctor s.mem semaphore.ops) l []
    (ctor_ops_holds _ _ _ (by simp) hq) (by simp [holds, queue_base.ctor])
    (by simp [queue_base.ctor, chain_end]) (by simp)
  simp only [List.nil_append] at h2 h3 h4
  have hemp : 0 < k - min k l.length → queue_base.empty m1 semaphore.q_ = true := by
    intro hpos
    have : l.drop k = [] := by
      apply List.drop_eq_nil_of_le
      omega
    rw [this] at h2
    have h2n : m1.next_ (.sentinel semaphore.q_) = none := h2
    simp [queue_base.empty, h2n]
  let n1 := if 0 < k - min k l.length then (s.n_ + (k - min k l.length)) % semaphore.SIZE
    else s.n_
  obtain ⟨m2, hd1, hd2, hd3, hd4⟩ := drain_spec fuel
    { n_ := n1, mem := m1, log := s.log ++ [Event.lock, Event.unlock] } (l.take k) h3
    (by simp; omega)
  refine ⟨m2, ?_, ?_, ?_⟩
  · simp only [semaphore.post_n_locked, semaphore.emit, h1]
    by_cases hpos : 0 < k - min k l.length
    · simp only [hpos, hemp hpos, if_true, Bool.true_or]
      simp only [n1, hpos, if_true] at hd1
      simp only [List.append_assoc, List.singleton_append] at hd1 ⊢
      rw [hd1]
      exact ops_dtor_empty _ hd2
    · simp only [hpos, if_false]
      simp only [n1, hpos, if_false] at hd1
      simp only [List.append_assoc, List.singleton_append] at hd1 ⊢
      rw [hd1]
      exact ops_dtor_empty _ hd2
  · exact hd4 _ _ (by simp) (by simp) (take_disjoint_drop l k hnd) h2
  · rw [hd3]; simpa [queue_base.ctor] using h5

/-! ## The code follows the summary -/

theorem chain_end_cons_ne_nil (p p1 : Addr) (l : List Nat) (h : l ≠ []) :
    chain_end p l = chain_end p1 l := by
  cases l with
  | nil => exact absurd rfl h
  | cons a l => rfl

theorem chain_end_node (p : Addr) (l : List Nat) (h : l ≠ []) :
    ∃ x ∈ l, chain_end p l = .node x := by
  cases l with
  | nil => exact absurd rfl h
  | cons a l =>
    rcases chain_end_cases (.node a) l with e | ⟨x, hx, e⟩
    · exact ⟨a, by simp, by simpa [chain_end] using e⟩
    · exact ⟨x, by simp [hx], by simpa [chain_end] using e⟩

theorem chain_end_drop (p : Addr) (l : List Nat) (k : Nat) (h : k < l.length) :
    chain_end p (l.drop k) = chain_end p l := by
  induction l generalizing k p with
  | nil => simp at h
  | cons y l ih =>
    cases k with
    | zero => rfl
    | succ k =>
      have hk : k < l.length := by simpa using h
      have hne : l.drop k ≠ [] := by
        intro e
        have := congrArg List.length e
        simp at this
        omega
      show chain_end p (l.drop k) = chain_end (.node y) l
      rw [← ih (.node y) k hk]
      exact chain_end_cons_ne_nil _ _ _ hne

theorem summarised_by_init (n : Nat) : summarised_by (semaphore.ctor n) (Abs.init n) := by
  refine ⟨rfl, rfl, ?_, ?_, ?_⟩
  · simp [holds, semaphore.ctor, Abs.init, queue_base.ctor, Heap.init]
  · intro _
    simp [semaphore.ctor, Abs.init, queue_base.ctor, chain_end]
  · intro h
    simp [Abs.init] at h

theorem post_sim (s : semaphore) (a : Abs) (hrel : summarised_by s a) :
    ∃ s1, semaphore.post s = some s1 ∧ summarised_by s1 a.post := by
  obtain ⟨hc, hlog, hq, hv, hnv⟩ := hrel
  by_cases hpos : 0 < a.c
  · refine ⟨{ s with n_ := (s.n_ + 1) % semaphore.SIZE }, ?_, ?_⟩
    · simp [semaphore.post, semaphore.try_post_fast_path, hc, hpos]
    · simp only [Abs.post, hpos, gt_iff_lt, if_true]
      exact ⟨by simp [hc], hlog, hq, hv, hnv⟩
  · have hc0 : s.n_ = 0 := by omega
    have hfast : semaphore.try_post_fast_path s 1 = (false, s) := by
      simp [semaphore.try_post_fast_path, hc0]
    cases hql : a.q with
    | nil =>
      rw [hql] at hq
      have hnone : s.mem.next_ (.sentinel semaphore.q_) = none := hq
      refine ⟨{ s with n_ := (s.n_ + 1) % semaphore.SIZE, log := s.log ++ [.lock, .unlock] },
        ?_, ?_⟩
      · simp [semaphore.post, hfast, semaphore.post_locked, semaphore.emit, pop_nil _ _ hq,
          queue_base.empty, hnone, hc0]
      · simp only [Abs.post, hpos, gt_iff_lt, if_false, hql]
        refine ⟨by simp [hc], by simp [hlog], hq, ?_, ?_⟩
        · intro h; simpa [hql] using hv h
        · intro h; simpa [hql] using hnv h
    | cons x t =>
      rw [hql] at hq
      have hval : a.valid = true := by
        cases hv2 : a.valid with
        | true => rfl
        | false => have := (hnv hv2).1; rw [hql] at this; exact absurd this (by simp)
      have hback := hv hval
      rw [hql] at hback
      let m1 := (s.mem.store_next (.sentinel semaphore.q_)
        (s.mem.next_ (.node x))).store_next (.node x) none
      refine ⟨{ n_ := s.n_, mem := m1,
                log := s.log ++ [.lock, .unlock, .complete (.node x)] }, ?_, ?_⟩
      · simp [semaphore.post, hfast, semaphore.post_locked, semaphore.emit, pop_cons _ _ x t hq,
          nullary_op_base.complete]
      · simp only [Abs.post, hpos, gt_iff_lt, if_false, hql, hval, Bool.true_and]
        refine ⟨hc, by simp [hlog], pop_cons_holds _ _ x t hq, ?_, ?_⟩
        · intro h
          have ht : t ≠ [] := by
            intro e; simp [e] at h
          show s.mem.back_ semaphore.q_ = _
          rw [hback]
          exact congrArg some (chain_end_cons_ne_nil _ _ t ht)
        · intro h
          have ht : t = [] := by
            cases t with
            | nil => rfl
            | cons y t => simp at h
          refine ⟨ht, x, ?_⟩
          show s.mem.back_ semaphore.q_ = _
          rw [hback, ht]
          rfl

theorem post_n_sim (fuel : Nat) (s : semaphore) (a : Abs) (k : Nat) (hrel : summarised_by s a)
    (hf : a.q.length + 1 ≤ fuel) :
    ∃ s1, semaphore.post_n fuel s k = some s1 ∧ summarised_by s1 (a.post_n k) := by
  obtain ⟨hc, hlog, hq, hv, hnv⟩ := hrel
  by_cases hk : k = 0
  · exact ⟨s, by simp [semaphore.post_n, hk], by simpa [Abs.post_n, hk] using ⟨hc, hlog, hq, hv, hnv⟩⟩
  by_cases hpos : 0 < a.c
  · refine ⟨{ s with n_ := (s.n_ + k) % semaphore.SIZE }, ?_, ?_⟩
    · simp [semaphore.post_n, semaphore.try_post_fast_path, hc, hpos, hk]
    · simp only [Abs.post_n, hpos, hk, gt_iff_lt, if_true, if_false]
      exact ⟨by simp [hc], hlog, hq, hv, hnv⟩
  · have hc0 : s.n_ = 0 := by omega
    have hfast : semaphore.try_post_fast_path s k = (false, s) := by
      simp [semaphore.try_post_fast_path, hc0]
    obtain ⟨m1, h1, h2, h3⟩ := post_n_locked_spec fuel s a.q k hq (by omega)
    refine ⟨_, by simpa [semaphore.post_n, hk, hfast] using h1, ?_⟩
    simp only [Abs.post_n, hpos, hk, gt_iff_lt, if_false]
    refine ⟨by simp [hc], by simp [hlog], h2, ?_, ?_⟩
    · intro h
      simp only [Bool.and_eq_true, Bool.or_eq_true] at h
      have hback := hv h.1
      show m1.back_ semaphore.q_ = _
      rw [h3, hback]
      rcases h.2 with h4 | h4
      · have : a.q = [] := by simpa using h4
        simp [this]
      · have hne : a.q.drop k ≠ [] := by
          intro e; simp [e] at h4
        have hkl : k < a.q.length := by
          by_contra hcon
          exact hne (List.drop_eq_nil_of_le (by omega))
        rw [chain_end_drop _ _ _ hkl]
    · intro h
      show _ ∧ ∃ i, m1.back_ semaphore.q_ = _
      rw [h3]
      cases hval : a.valid with
      | false =>
        obtain ⟨hq0, i, hi⟩ := hnv hval
        exact ⟨by simp [hq0], i, hi⟩
      | true =>
        simp only [hval, Bool.true_and, Bool.or_eq_false_iff] at h
        have hqne : a.q ≠ [] := by
          intro e; simp [e] at h
        have hdrop : a.q.drop k = [] := by
          cases hd : a.q.drop k with
          | nil => rfl
          | cons y t => simp [hd] at h
        refine ⟨hdrop, ?_⟩
        rw [hv hval]
        obtain ⟨x, _, e⟩ := chain_end_node (.sentinel semaphore.q_) a.q hqne
        exact ⟨x, by rw [e]⟩

theorem try_wait_sim (s : semaphore) (a : Abs) (hrel : summarised_by s a) :
    (semaphore.try_wait s).1 = a.try_wait.1 ∧
      summarised_by (semaphore.try_wait s).2 a.try_wait.2 := by
  obtain ⟨hc, hlog, hq, hv, hnv⟩ := hrel
  by_cases hpos : 0 < a.c
  · have hpos2 : 0 < s.n_ := by omega
    simp only [semaphore.try_wait, Abs.try_wait, hpos, hpos2, gt_iff_lt, if_true, true_and]
    exact ⟨by simp [hc], hlog, hq, hv, hnv⟩
  · have hpos2 : ¬ 0 < s.n_ := by omega
    simp only [semaphore.try_wait, Abs.try_wait, hpos, hpos2, gt_iff_lt, if_false, true_and]
    exact ⟨hc, hlog, hq, hv, hnv⟩

/-- With the counter at 0 the locked part of `async_wait` links the node behind
`back_` and completes nothing. -/
theorem async_wait_locked_zero (fuel : Nat) (s : semaphore) (op b : Addr) (hn : s.n_ = 0)
    (hb : s.mem.back_ semaphore.q_ = some b) (hf : 1 ≤ fuel) :
    semaphore.async_wait_locked fuel s op =
      some { n_ := s.n_,
             mem := queue_base.ctor ((s.mem.store_next b (some op)).store_back semaphore.q_
               (some op)) semaphore.ops,
             log := s.log ++ [Event.lock, Event.unlock] } := by
  obtain ⟨f, rfl⟩ : ∃ f, fuel = f + 1 := ⟨fuel - 1, by omega⟩
  have hpush : queue_base.push s.mem semaphore.q_ (some op) =
      some ((s.mem.store_next b (some op)).store_back semaphore.q_ (some op)) := by
    simp [queue_base.push, hb]
  have hpop : ∀ m : Heap, queue_base.pop (queue_base.ctor m semaphore.ops) semaphore.ops =
      (none, queue_base.ctor m semaphore.ops) :=
    fun m => pop_nil _ _ (by simp [holds, queue_base.ctor])
  simp only [semaphore.async_wait_locked, semaphore.emit, hpush, semaphore.async_wait_loop, hn,
    gt_iff_lt, lt_self_iff_false, decide_False, Bool.false_and, semaphore.drain]
  simp only [Bool.false_eq_true, if_false]
  rw [hpop]
  simp only []
  rw [ops_dtor_empty]
  · simp
  · simp [holds, queue_base.ctor]

theorem async_wait_sim (fuel : Nat) (s : semaphore) (a : Abs) (h : Nat) (o : alloc_outcome)
    (hrel : summarised_by s a) (hfresh : h ∉ a.q) (hf : 1 ≤ fuel) :
    ∃ s1, semaphore.async_wait fuel s h o = some ((a.async_wait h o).1, s1) ∧
      summarised_by s1 (a.async_wait h o).2 := by
  obtain ⟨hc, hlog, hq, hv, hnv⟩ := hrel
  by_cases hpos : 0 < a.c
  · have hpos2 : 0 < s.n_ := by omega
    refine ⟨{ s with n_ := s.n_ - 1, log := s.log ++ [.execute h] }, ?_, ?_⟩
    · simp [semaphore.async_wait, semaphore.try_wait, Abs.async_wait, hpos, hpos2, semaphore.emit]
    · simp only [Abs.async_wait, hpos, gt_iff_lt, if_true]
      exact ⟨by simp [hc], by simp [hlog], hq, hv, hnv⟩
  · have hc0 : s.n_ = 0 := by omega
    have htw : semaphore.try_wait s = (false, s) := by simp [semaphore.try_wait, hc0]
    by_cases ho : o = .ok
    · subst ho
      let m0 := s.mem.store_next (.node h) none
      have hq0 : holds m0 (.sentinel semaphore.q_) a.q := by
        refine holds_congr s.mem m0 _ _ (by simp [m0]) ?_ hq
        intro x hx
        have : x ≠ h := fun e => hfresh (by simpa [e] using hx)
        simp [m0, this]
      have hback : ∃ b, s.mem.back_ semaphore.q_ = some b ∧
          (a.valid = true → b = chain_end (.sentinel semaphore.q_) a.q) ∧
          (a.valid = false → ∃ i, b = .node i) := by
        cases hval : a.valid with
        | true => exact ⟨_, hv hval, fun _ => rfl, fun e => by simp at e⟩
        | false =>
          obtain ⟨_, i, hi⟩ := hnv hval
          exact ⟨_, hi, fun e => by simp at e, fun _ => ⟨i, rfl⟩⟩
      obtain ⟨b, hb, hb1, hb2⟩ := hback
      have hlocked := async_wait_locked_zero fuel
        { n_ := s.n_, mem := m0, log := s.log ++ [.make_op h] } (.node h) b hc0
        (by simpa [m0] using hb) hf
      refine ⟨{ n_ := s.n_,
                mem := queue_base.ctor ((m0.store_next b (some (.node h))).store_back
                  semaphore.q_ (some (.node h))) semaphore.ops,
                log := s.log ++ [.make_op h] ++ [.lock, .unlock] }, ?_, ?_⟩
      · simp only [semaphore.async_wait, htw, make_nullary_op, semaphore.emit]
        rw [hlocked]
        simp [Abs.async_wait, hpos]
      · simp only [Abs.async_wait, hpos, gt_iff_lt, if_false, if_true]
        refine ⟨hc, by simp [hlog], ?_, ?_, ?_⟩
        · cases hval : a.valid with
          | true =>
            simp only [if_true]
            have h1 := holds_snoc m0 (.sentinel semaphore.q_) a.q h hq0 hfresh (by simp)
              (by simp [m0])
            rw [← hb1 hval] at h1
            exact holds_congr _ _ _ _ (by simp [queue_base.ctor])
              (fun x _ => by simp [queue_base.ctor]) h1
          | false =>
            obtain ⟨i, hi⟩ := hb2 hval
            obtain ⟨hq1, _⟩ := hnv hval
            rw [hq1] at hq
            have h0 : s.mem.next_ (.sentinel semaphore.q_) = none := hq
            simp [holds, queue_base.ctor, hi, m0, h0]
        · intro hval
          have hval2 : a.valid = true := hval
          simp [hval2, queue_base.ctor, chain_end_snoc]
        · intro hval
          have hval2 : a.valid = false := hval
          simp [hval2, queue_base.ctor]
    · have h1 : make_nullary_op s.mem h o = none := by
        cases o <;> simp_all [make_nullary_op]
      refine ⟨s, ?_, ?_⟩
      · simp [semaphore.async_wait, htw, h1, Abs.async_wait, hpos, ho]
      · simp only [Abs.async_wait, hpos, ho, gt_iff_lt, if_false]
        exact ⟨hc, hlog, hq, hv, hnv⟩

/-- Every call of the embedding does what the summary says, given a fresh
handler and fuel for one more iteration than there are waiters. -/
theorem step_sim (fuel : Nat) (s : semaphore) (a : Abs) (c : semaphore.Call)
    (hrel : summarised_by s a) (hfresh : ∀ h ∈ handlers [c], h ∉ a.q)
    (hf : a.q.length + 1 ≤ fuel) :
    ∃ s1, semaphore.step fuel s c = some ((a.step c).1, s1) ∧ summarised_by s1 (a.step c).2 := by
  cases c with
  | post =>
    obtain ⟨s1, h1, h2⟩ := post_sim s a hrel
    exact ⟨s1, by simp [semaphore.step, h1, Abs.step], h2⟩
  | post_n k =>
    obtain ⟨s1, h1, h2⟩ := post_n_sim fuel s a k hrel hf
    exact ⟨s1, by simp [semaphore.step, h1, Abs.step], h2⟩
  | try_wait =>
    obtain ⟨h1, h2⟩ := try_wait_sim s a hrel
    exact ⟨_, by simp [semaphore.step, h1, Abs.step], h2⟩
  | async_wait h o =>
    exact async_wait_sim fuel s a h o hrel (hfresh h (by simp [handlers])) (by omega)

theorem step_queue_mem (a : Abs) (c : semaphore.Call) :
    ∀ x ∈ (a.step c).2.q, x ∈ a.q ∨ x ∈ handlers [c] := by
  intro x hx
  cases c with
  | post =>
    simp only [Abs.step, Abs.post] at hx
    split at hx
    · exact Or.inl hx
    · split at hx
      · exact Or.inl hx
      · rename_i h t heq
        exact Or.inl (by rw [heq]; simp [show x ∈ t from hx])
  | post_n k =>
    simp only [Abs.step, Abs.post_n] at hx
    split at hx
    · exact Or.inl hx
    · split at hx
      · exact Or.inl hx
      · exact Or.inl (List.mem_of_mem_drop hx)
  | try_wait =>
    simp only [Abs.step, Abs.try_wait] at hx
    split at hx <;> exact Or.inl hx
  | async_wait h o =>
    simp only [Abs.step, Abs.async_wait] at hx
    split at hx
    · exact Or.inl hx
    · split at hx
      · simp only at hx
        split at hx
        · rcases List.mem_append.mp hx with h1 | h1
          · exact Or.inl h1
          · exact Or.inr (by simpa [handlers] using h1)
        · simp at hx
      · exact Or.inl hx

theorem step_queue_length (a : Abs) (c : semaphore.Call) :
    (a.step c).2.q.length ≤ a.q.length + 1 := by
  cases c with
  | post =>
    simp only [Abs.step, Abs.post]
    split
    · simp
    · split
      · simp_all
      · simp_all
        omega
  | post_n k =>
    simp only [Abs.step, Abs.post_n]
    split
    · simp
    · split
      · simp
      · simp; omega
  | try_wait =>
    simp only [Abs.step, Abs.try_wait]
    split <;> simp
  | async_wait h o =>
    simp only [Abs.step, Abs.async_wait]
    split
    · simp
    · split
      · simp only
        split <;> simp
      · simp

theorem handlers_cons (c : semaphore.Call) (cs : List semaphore.Call) :
    handlers (c :: cs) = handlers [c] ++ handlers cs := by
  cases c <;> simp [handlers]

/-- A sequence of calls with pairwise distinct handlers, none of them queued at
the start, runs to completion and does what the summary says. -/
theorem run_sim (fuel : Nat) (cs : List semaphore.Call) (s : semaphore) (a : Abs)
    (hrel : summarised_by s a) (hnd : (handlers cs).Nodup) (hfresh : ∀ h ∈ handlers cs, h ∉ a.q)
    (hf : a.q.length + cs.length + 1 ≤ fuel) :
    ∃ s1, semaphore.run fuel cs s = some ((a.run cs).1, s1) ∧ summarised_by s1 (a.run cs).2 := by
  induction cs generalizing s a with
  | nil => exact ⟨s, rfl, hrel⟩
  | cons c cs ih =>
    rw [handlers_cons] at hnd hfresh
    obtain ⟨s1, h1, h2⟩ := step_sim fuel s a c hrel
      (fun h hh => hfresh h (List.mem_append.mpr (Or.inl hh))) (by simp at hf; omega)
    have hlen := step_queue_length a c
    obtain ⟨s2, h3, h4⟩ := ih s1 (a.step c).2 h2 (List.nodup_append.mp hnd).2.1
      (by
        intro h hh hq
        rcases step_queue_mem a c h hq with h5 | h5
        · exact hfresh h (List.mem_append.mpr (Or.inr hh)) h5
        · exact (List.nodup_append.mp hnd).2.2 h5 hh)
      (by simp at hf; omega)
    exact ⟨s2, by simp [semaphore.run, h1, h3, Abs.run], h4⟩

/-! ## Projections of the log -/

theorem completed_append (l1 l2 : List Event) :
    completed (l1 ++ l2) = completed l1 ++ completed l2 := by
  induction l1 with
  | nil => rfl
  | cons e l1 ih => cases e <;> simp [completed, ih]

theorem destroyed_append (l1 l2 : List Event) :
    destroyed (l1 ++ l2) = destroyed l1 ++ destroyed l2 := by
  induction l1 with
  | nil => rfl
  | cons e l1 ih => cases e <;> simp [destroyed, ih]

theorem enqueued_append (l1 l2 : List Event) :
    enqueued (l1 ++ l2) = enqueued l1 ++ enqueued l2 := by
  induction l1 with
  | nil => rfl
  | cons e l1 ih => cases e <;> simp [enqueued, ih]

theorem executed_append (l1 l2 : List Event) :
    executed (l1 ++ l2) = executed l1 ++ executed l2 := by
  induction l1 with
  | nil => rfl
  | cons e l1 ih => cases e <;> simp [executed, ih]

theorem completed_map_complete (l : List Nat) :
    completed (l.map (fun x => Event.complete (.node x))) = l.map Addr.node := by
  induction l with
  | nil => rfl
  | cons a l ih => simp [completed, ih]

theorem destroyed_map_complete (l : List Nat) :
    destroyed (l.map (fun x => Event.complete (.node x))) = [] := by
  induction l with
  | nil => rfl
  | cons a l ih => simp [destroyed, ih]

theorem enqueued_map_complete (l : List Nat) :
    enqueued (l.map (fun x => Event.complete (.node x))) = [] := by
  induction l with
  | nil => rfl
  | cons a l ih => simp [enqueued, ih]

theorem executed_map_complete (l : List Nat) :
    executed (l.map (fun x => Event.complete (.node x))) = [] := by
  induction l with
  | nil => rfl
  | cons a l ih => simp [executed, ih]

theorem count_complete (l : List Event) (a : Addr) :
    l.count (Event.complete a) = (completed l).count a := by
  induction l with
  | nil => rfl
  | cons e l ih =>
    cases e <;> simp [completed, List.count_cons, ih]

theorem mem_destroyed (l : List Event) (a : Addr) :
    Event.destroy a ∈ l ↔ a ∈ destroyed l := by
  induction l with
  | nil => simp [destroyed]
  | cons e l ih =>
    cases e <;> simp [destroyed, ih]

theorem handlers_append (l1 l2 : List semaphore.Call) :
    handlers (l1 ++ l2) = handlers l1 ++ handlers l2 := by
  induction l1 with
  | nil => rfl
  | cons c l1 ih => cases c <;> simp [handlers, ih]

theorem posted_append (l1 l2 : List semaphore.Call) :
    posted (l1 ++ l2) = posted l1 + posted l2 := by
  induction l1 with
  | nil => simp [posted]
  | cons c l1 ih => cases c <;> simp [posted, ih] <;> omega

theorem handlers_take_nodup (cs : List semaphore.Call) (k : Nat) (h : (handlers cs).Nodup) :
    (handlers (cs.take k)).Nodup := by
  have : handlers cs = handlers (cs.take k) ++ handlers (cs.drop k) := by
    rw [← handlers_append, List.take_append_drop]
  rw [this] at h
  exact (List.nodup_append.mp h).1

theorem posted_take_le (cs : List semaphore.Call) (k : Nat) :
    posted (cs.take k) ≤ posted cs := by
  have : posted cs = posted (cs.take k) + posted (cs.drop k) := by
    rw [← posted_append, List.take_append_drop]
  omega

/-- A sequence of calls on a fresh semaphore, with distinct handlers and fuel
for one more iteration than there are calls, runs to completion as summarised. -/
theorem run_from_ctor (fuel n0 : Nat) (cs : List semaphore.Call) (hnd : (handlers cs).Nodup)
    (hf : cs.length + 1 ≤ fuel) :
    ∃ s, semaphore.run fuel cs (semaphore.ctor n0) = some (((Abs.init n0).run cs).1, s) ∧
      summarised_by s ((Abs.init n0).run cs).2 :=
  run_sim fuel cs (semaphore.ctor n0) (Abs.init n0) (summarised_by_init n0) hnd
    (by simp [Abs.init]) (by simpa [Abs.init] using hf)

theorem empty_iff_of_summarised (s : semaphore) (a : Abs) (h : summarised_by s a) :
    queue_base.empty s.mem semaphore.q_ = true ↔ a.q = [] := by
  obtain ⟨_, _, hq, _, _⟩ := h
  cases hl : a.q with
  | nil =>
    rw [hl] at hq
    have : s.mem.next_ (.sentinel semaphore.q_) = none := hq
    simp [queue_base.empty, this]
  | cons x t =>
    rw [hl] at hq
    have : s.mem.next_ (.sentinel semaphore.q_) = some (.node x) := hq.1
    simp [queue_base.empty, this]

/-! ## Invariants of the summary -/

theorem abs_step_exclusion (a : Abs) (c : semaphore.Call) (h : 0 < a.c → a.q = []) :
    0 < (a.step c).2.c → (a.step c).2.q = [] := by
  cases c with
  | post =>
    simp only [Abs.step, Abs.post]
    split
    · intro _; exact h (by assumption)
    · split
      · intro _; assumption
      · simp only; intro h2; omega
  | post_n k =>
    simp only [Abs.step, Abs.post_n]
    split
    · exact h
    · split
      · intro _; exact h (by assumption)
      · simp only
        split
        · intro _
          apply List.drop_eq_nil_of_le
          omega
        · intro h2; omega
  | try_wait =>
    simp only [Abs.step, Abs.try_wait]
    split
    · intro _; exact h (by assumption)
    · exact h
  | async_wait x o =>
    simp only [Abs.step, Abs.async_wait]
    split
    · intro _; exact h (by assumption)
    · split
      · simp only; intro h2; omega
      · exact h

theorem abs_run_exclusion (cs : List semaphore.Call) (a : Abs) (h : 0 < a.c → a.q = []) :
    0 < (a.run cs).2.c → (a.run cs).2.q = [] := by
  induction cs generalizing a with
  | nil => exact h
  | cons c cs ih => exact ih (a.step c).2 (abs_step_exclusion a c h)

theorem claimed_cons (r : semaphore.Ret) (rs : List semaphore.Ret) :
    claimed (r :: rs) = claimed [r] + claimed rs := by
  cases r with
  | done => simp [claimed]
  | threw => simp [claimed]
  | value b => cases b <;> simp [claimed]

theorem abs_step_conservation (a : Abs) (c : semaphore.Call)
    (hb : a.c + posted [c] < semaphore.SIZE) :
    (a.step c).2.c + claimed [(a.step c).1] + (executed (a.step c).2.log).length +
        (completed (a.step c).2.log).length =
      a.c + posted [c] + (executed a.log).length + (completed a.log).length ∧
    (a.step c).2.c ≤ a.c + posted [c] := by
  cases c with
  | post =>
    have hb2 : a.c + 1 < semaphore.SIZE := by simpa [posted] using hb
    have hm := Nat.mod_eq_of_lt hb2
    simp only [Abs.step, Abs.post, posted, claimed]
    split
    · refine ⟨?_, ?_⟩ <;> (simp only [hm]; try omega)
    · split
      · refine ⟨?_, ?_⟩ <;>
          (simp only [hm, executed_append, completed_append, executed, completed,
            List.length_append, List.length_nil]; try omega)
      · refine ⟨?_, ?_⟩ <;>
          ((try simp only [executed_append, completed_append, executed, completed,
            List.length_append, List.length_nil, List.length_cons]); omega)
  | post_n k =>
    have hb2 : a.c + k < semaphore.SIZE := by simpa [posted] using hb
    have hm := Nat.mod_eq_of_lt hb2
    simp only [Abs.step, Abs.post_n, posted, claimed]
    split
    · refine ⟨?_, ?_⟩ <;> omega
    · split
      · refine ⟨?_, ?_⟩ <;> (simp only [hm]; try omega)
      · have hlt : a.c + (k - min k a.q.length) < semaphore.SIZE := by omega
        refine ⟨?_, ?_⟩ <;>
          simp only [Nat.mod_eq_of_lt hlt, executed_append, completed_append,
            executed_map_complete, completed_map_complete, List.length_append, List.length_map,
            List.length_take, executed, completed, List.length_nil] <;>
          split <;> omega
  | try_wait =>
    simp only [Abs.step, Abs.try_wait, posted]
    split
    · refine ⟨?_, ?_⟩ <;> ((try simp only [claimed]); try omega)
    · refine ⟨?_, ?_⟩ <;> ((try simp only [claimed]); try omega)
  | async_wait h o =>
    simp only [Abs.step, Abs.async_wait, posted]
    split
    · refine ⟨?_, ?_⟩ <;>
        ((try simp only [executed_append, completed_append, executed, completed,
          List.length_append, List.length_nil, List.length_cons, claimed]); omega)
    · split
      · refine ⟨?_, ?_⟩ <;>
          ((try simp only [executed_append, completed_append, executed, completed,
            List.length_append, List.length_nil, claimed]); omega)
      · refine ⟨?_, ?_⟩ <;> ((try simp only [claimed]); try omega)

theorem abs_run_conservation (cs : List semaphore.Call) (a : Abs)
    (hb : a.c + posted cs < semaphore.SIZE) :
    (a.run cs).2.c + claimed (a.run cs).1 + (executed (a.run cs).2.log).length +
        (completed (a.run cs).2.log).length =
      a.c + posted cs + (executed a.log).length + (completed a.log).length := by
  induction cs generalizing a with
  | nil => simp [Abs.run, posted, claimed]
  | cons c cs ih =>
    have hp : posted (c :: cs) = posted [c] + posted cs := posted_append [c] cs
    obtain ⟨h1, hc⟩ := abs_step_conservation a c (by omega)
    have h2 := ih (a.step c).2 (by omega)
    simp only [Abs.run]
    rw [claimed_cons]
    omega

theorem abs_step_fifo (a : Abs) (c : semaphore.Call) (h : a.fifo) : (a.step c).2.fifo := by
  obtain ⟨hv, hnv⟩ := h
  cases c with
  | post =>
    simp only [Abs.step, Abs.post]
    split
    · exact ⟨hv, hnv⟩
    · split
      · rename_i hq
        refine ⟨fun h1 => ?_, fun h1 => ?_⟩
        · have := hv h1
          simpa [completed_append, enqueued_append, completed, enqueued, hq] using this
        · have := hnv h1
          simpa [completed_append, enqueued_append, completed, enqueued, hq] using this
      · rename_i x t hq
        have hval : a.valid = true := by
          cases hv2 : a.valid with
          | true => rfl
          | false => have := (hnv hv2).1; rw [hq] at this; exact absurd this (by simp)
        have heq := hv hval
        rw [hq] at heq
        refine ⟨fun _ => ?_, fun h1 => ?_⟩
        · simpa [completed_append, enqueued_append, completed, enqueued] using heq
        · have ht : t = [] := by
            cases t with
            | nil => rfl
            | cons y t => simp [hval] at h1
          refine ⟨ht, ?_⟩
          rw [ht] at heq
          simp only [completed_append, enqueued_append, completed, enqueued, List.append_nil]
          rw [← heq]
          simp
  | post_n k =>
    simp only [Abs.step, Abs.post_n]
    split
    · exact ⟨hv, hnv⟩
    · split
      · exact ⟨hv, hnv⟩
      · refine ⟨fun h1 => ?_, fun h1 => ?_⟩
        · simp only [Bool.and_eq_true] at h1
          have heq := hv h1.1
          simp only [completed_append, enqueued_append, completed, enqueued,
            completed_map_complete, enqueued_map_complete, List.append_nil, List.nil_append]
          rw [← heq, List.append_assoc, ← List.map_append, List.take_append_drop]
        · cases hval : a.valid with
          | false =>
            obtain ⟨hq0, hp⟩ := hnv hval
            refine ⟨by simp [hq0], ?_⟩
            simpa [completed_append, enqueued_append, completed, enqueued,
              completed_map_complete, enqueued_map_complete, hq0] using hp
          | true =>
            have heq := hv hval
            simp only [hval, Bool.true_and, Bool.or_eq_false_iff] at h1
            have hdrop : a.q.drop k = [] := by
              cases hd : a.q.drop k with
              | nil => rfl
              | cons y t => simp [hd] at h1
            have htake : a.q.take k = a.q := by
              have := List.take_append_drop k a.q
              rw [hdrop, List.append_nil] at this
              exact this
            refine ⟨hdrop, ?_⟩
            simp only [completed_append, enqueued_append, completed, enqueued,
              completed_map_complete, enqueued_map_complete, List.append_nil, List.nil_append,
              htake]
            rw [← heq]
  | try_wait =>
    simp only [Abs.step, Abs.try_wait]
    split <;> exact ⟨hv, hnv⟩
  | async_wait x o =>
    simp only [Abs.step, Abs.async_wait]
    split
    · refine ⟨fun h1 => ?_, fun h1 => ?_⟩
      · simpa [completed_append, enqueued_append, completed, enqueued] using hv h1
      · simpa [completed_append, enqueued_append, completed, enqueued] using hnv h1
    · split
      · refine ⟨fun h1 => ?_, fun h1 => ?_⟩
        · have h2 : a.valid = true := h1
          have heq := hv h2
          simp only [h2, if_true, completed_append, enqueued_append, completed, enqueued,
            List.append_nil, List.map_append, List.map_cons, List.map_nil]
          rw [← heq, List.append_assoc]
        · have h2 : a.valid = false := h1
          obtain ⟨_, hp⟩ := hnv h2
          refine ⟨by simp [h2], ?_⟩
          simp only [completed_append, enqueued_append, completed, enqueued, List.append_nil]
          exact hp.trans (List.prefix_append _ _)
      · exact ⟨hv, hnv⟩

theorem abs_run_fifo (cs : List semaphore.Call) (a : Abs) (h : a.fifo) : (a.run cs).2.fifo := by
  induction cs generalizing a with
  | nil => exact h
  | cons c cs ih => exact ih (a.step c).2 (abs_step_fifo a c h)

theorem abs_fifo_front (a : Abs) (h : a.fifo) :
    completed a.log ++ a.q.map Addr.node <+: enqueued a.log := by
  cases hval : a.valid with
  | true => rw [h.1 hval]
  | false =>
    obtain ⟨hq, hp⟩ := h.2 hval
    simpa [hq] using hp

theorem abs_step_enqueued (a : Abs) (c : semaphore.Call) :
    ∃ l : List Nat, l.Sublist (handlers [c]) ∧
      enqueued (a.step c).2.log = enqueued a.log ++ l.map Addr.node ∧
      destroyed (a.step c).2.log = destroyed a.log := by
  cases c with
  | post =>
    refine ⟨[], by simp, ?_⟩
    simp only [Abs.step, Abs.post]
    split
    · simp
    · split <;> simp [enqueued_append, destroyed_append, enqueued, destroyed]
  | post_n k =>
    refine ⟨[], by simp, ?_⟩
    simp only [Abs.step, Abs.post_n]
    split
    · simp
    · split
      · simp
      · simp only [enqueued_append, destroyed_append, enqueued, destroyed,
          enqueued_map_complete, destroyed_map_complete, List.append_nil, List.map_nil,
          and_self]
  | try_wait =>
    refine ⟨[], by simp, ?_⟩
    simp only [Abs.step, Abs.try_wait]
    split <;> simp
  | async_wait x o =>
    simp only [Abs.step, Abs.async_wait]
    split
    · exact ⟨[], by simp, by simp [enqueued_append, destroyed_append, enqueued, destroyed]⟩
    · split
      · exact ⟨[x], by simp [handlers],
          by simp [enqueued_append, destroyed_append, enqueued, destroyed]⟩
      · exact ⟨[], by simp, by simp⟩

theorem abs_run_enqueued (cs : List semaphore.Call) (a : Abs) :
    ∃ l : List Nat, l.Sublist (handlers cs) ∧
      enqueued (a.run cs).2.log = enqueued a.log ++ l.map Addr.node ∧
      destroyed (a.run cs).2.log = destroyed a.log := by
  induction cs generalizing a with
  | nil => exact ⟨[], by simp [handlers], by simp [Abs.run]⟩
  | cons c cs ih =>
    obtain ⟨l1, h1, h2, h3⟩ := abs_step_enqueued a c
    obtain ⟨l2, h4, h5, h6⟩ := ih (a.step c).2
    refine ⟨l1 ++ l2, ?_, ?_, ?_⟩
    · rw [handlers_cons]
      exact List.Sublist.append h1 h4
    · simp only [Abs.run]
      rw [h5, h2]
      simp
    · simp only [Abs.run]
      rw [h6, h3]

theorem node_injective : Function.Injective Addr.node := by
  intro x y h
  simpa using h

/-- In a list without repetition, a front part that contains `B` contains
everything up to `B`. -/
theorem front_contains_earlier {α : Type} (P E l1 l2 l3 : List α) (A B : α)
    (hP : P <+: E) (hnd : E.Nodup) (hE : E = l1 ++ A :: (l2 ++ B :: l3)) (hB : B ∈ P) :
    ∃ l4, P = l1 ++ A :: (l2 ++ B :: l4) := by
  have hE2 : E = (l1 ++ A :: l2) ++ [B] ++ l3 := by simp [hE]
  have hL : (l1 ++ A :: l2) ++ [B] <+: E := by rw [hE2]; exact List.prefix_append _ _
  rcases List.prefix_or_prefix_of_prefix hP hL with h | h
  · rcases List.prefix_concat_iff.mp h with h1 | h1
    · exact ⟨[], by simp [h1]⟩
    · exfalso
      have hBL : B ∈ l1 ++ A :: l2 := h1.mem hB
      rw [hE2, List.append_assoc] at hnd
      exact (List.nodup_append.mp hnd).2.2 hBL (by simp)
  · obtain ⟨t, ht⟩ := h
    exact ⟨t, by simp [← ht]⟩

/-! ## Splice -/

theorem chain_end_append (p : Addr) (l1 l2 : List Nat) :
    chain_end p (l1 ++ l2) = chain_end (chain_end p l1) l2 := by
  induction l1 generalizing p with
  | nil => rfl
  | cons a l1 ih => exact ih (.node a)

/-- Linking a chain behind the last object of another chain joins them. -/
theorem holds_join (m : Heap) (p : Addr) (l1 : List Nat) (b : Nat) (l2 : List Nat)
    (h1 : holds m p l1) (h2 : holds m (.node b) l2)
    (hp : ∀ y ∈ b :: l2, p ≠ .node y) (hdis : ∀ x ∈ l1, x ∉ b :: l2) :
    holds (m.store_next (chain_end p l1) (some (.node b))) p (l1 ++ b :: l2) := by
  induction l1 generalizing p with
  | nil =>
    refine ⟨by simp [chain_end], ?_⟩
    refine holds_congr m _ (.node b) l2 ?_ ?_ h2
    · have := hp b (by simp)
      simp [chain_end, Ne.symm this]
    · intro x hx
      have := hp x (by simp [hx])
      simp [chain_end, Ne.symm this]
  | cons a l1 ih =>
    obtain ⟨ha, hl⟩ := h1
    have hpe : p ≠ chain_end (.node a) l1 := by
      rcases chain_end_cases (.node a) l1 with e | ⟨x, hx, e⟩
      · rw [e]; intro e2; subst e2
        exact holds_not_mem m a (a :: l1) ⟨ha, hl⟩ (by simp)
      · rw [e]; intro e2; subst e2
        exact holds_not_mem m x (a :: l1) ⟨ha, hl⟩ (by simp [hx])
    refine ⟨by simp [chain_end, hpe, ha], ih (.node a) hl ?_ (fun x hx => hdis x (by simp [hx]))⟩
    intro y hy e
    have : a = y := by simpa using e
    subst this
    exact hdis a (by simp) hy

theorem ctor_built (m : Heap) (q : Nat) : queue_built (queue_base.ctor m q) q [] := by
  refine ⟨?_, ?_⟩
  · simp [queue_holds, holds, queue_base.ctor]
  · simp [queue_base.ctor, chain_end]

/-- Pushing a node that is not in the queue and whose link is null extends a
built queue at the back. -/
theorem push_built (m : Heap) (q : Nat) (l : List Nat) (a : Nat) (h : queue_built m q l)
    (ha : a ∉ l) (hn : m.next_ (.node a) = none) :
    ∃ m1, queue_base.push m q (some (.node a)) = some m1 ∧ queue_built m1 q (l ++ [a]) := by
  obtain ⟨h1, h2⟩ := h
  refine ⟨(m.store_next (chain_end (.sentinel q) l) (some (.node a))).store_back q
    (some (.node a)), by simp [queue_base.push, h2], ?_, ?_⟩
  · have := holds_snoc m (.sentinel q) l a h1 ha (by simp) hn
    exact holds_congr (m.store_next (chain_end (.sentinel q) l) (some (.node a))) _ _ _ rfl
      (fun _ _ => rfl) this
  · simp [chain_end_snoc]

/-! ## The re-validation loop of `async_wait` -/

/-- One successful iteration of a hand-over loop: the front node of `q_` is
popped and pushed onto `ops`. -/
theorem move_front (m : Heap) (a : Nat) (l d : List Nat)
    (hl : holds m (.sentinel semaphore.q_) (a :: l)) (hd : holds m (.sentinel semaphore.ops) d)
    (hb : m.back_ semaphore.ops = some (chain_end (.sentinel semaphore.ops) d))
    (hdis : ∀ x ∈ d, x ∉ a :: l) :
    ∃ m2, queue_base.push (queue_base.pop m semaphore.q_).2 semaphore.ops
          (queue_base.pop m semaphore.q_).1 = some m2 ∧
      holds m2 (.sentinel semaphore.q_) l ∧
      holds m2 (.sentinel semaphore.ops) (d ++ [a]) ∧
      m2.back_ semaphore.ops = some (chain_end (.sentinel semaphore.ops) (d ++ [a])) ∧
      m2.back_ semaphore.q_ = m.back_ semaphore.q_ ∧
      (∀ x ∈ d ++ [a], x ∉ l) := by
  have hnd := holds_nodup m _ _ hl
  have hal : a ∉ l := (List.nodup_cons.mp hnd).1
  have had : a ∉ d := fun e => hdis a e (by simp)
  let m1 := (m.store_next (.sentinel semaphore.q_) (m.next_ (.node a))).store_next
    (.node a) none
  have hl1 : holds m1 (.sentinel semaphore.q_) l := pop_cons_holds m _ a l hl
  have hd1 : holds m1 (.sentinel semaphore.ops) d :=
    pop_cons_frame m _ a _ d (by simp) (by simp) had hd
  have hn1 : m1.next_ (.node a) = none := by simp [m1]
  have hb1 : m1.back_ semaphore.ops = some (chain_end (.sentinel semaphore.ops) d) := by
    simpa [m1] using hb
  let m2 := (m1.store_next (chain_end (.sentinel semaphore.ops) d)
    (some (.node a))).store_back semaphore.ops (some (.node a))
  have hd2 : holds m2 (.sentinel semaphore.ops) (d ++ [a]) := by
    have := holds_snoc m1 _ d a hd1 had (by simp) hn1
    exact holds_congr (m1.store_next (chain_end (.sentinel semaphore.ops) d)
      (some (.node a))) m2 _ _ rfl (fun _ _ => rfl) this
  have hce : chain_end (.sentinel semaphore.ops) d ≠ .sentinel semaphore.q_ ∧
      ∀ x ∈ l, Addr.node x ≠ chain_end (.sentinel semaphore.ops) d := by
    rcases chain_end_cases (.sentinel semaphore.ops) d with e | ⟨y, hy, e⟩
    · rw [e]; exact ⟨by simp, fun x _ => by simp⟩
    · rw [e]
      refine ⟨by simp, fun x hx e2 => ?_⟩
      have : x = y := by simpa using e2
      subst this
      exact hdis x hy (by simp [hx])
  have hl2 : holds m2 (.sentinel semaphore.q_) l := by
    refine holds_congr m1 _ _ _ ?_ ?_ hl1
    · simp [m2, Ne.symm hce.1]
    · intro x hx
      simp [m2, hce.2 x hx]
  refine ⟨m2, ?_, hl2, hd2, by simp [m2, chain_end_snoc], by simp [m2, m1], ?_⟩
  · rw [pop_cons m _ a l hl]
    simp [queue_base.push, hb, m2, m1]
  · intro x hx
    rcases List.mem_append.mp hx with h1 | h1
    · exact fun e => hdis x h1 (by simp [e])
    · have : x = a := by simpa using h1
      subst this; exact hal

theorem async_wait_loop_spec (l : List Nat) :
    ∀ (s : semaphore) (d : List Nat),
      holds s.mem (.sentinel semaphore.q_) l → holds s.mem (.sentinel semaphore.ops) d →
      s.mem.back_ semaphore.ops = some (chain_end (.sentinel semaphore.ops) d) →
      (∀ x ∈ d, x ∉ l) →
      (∀ fuel, 2 * min s.n_ l.length + 1 ≤ fuel →
        loop_result s l d (semaphore.async_wait_loop fuel s.n_ s)) ∧
      (∀ fuel, 2 * min s.n_ l.length + 2 ≤ fuel →
        loop_result s l d (semaphore.async_wait_loop fuel (s.n_ + 1) s)) := by
  induction l with
  | nil =>
    intro s d hl hd hb _
    have he : queue_base.empty s.mem semaphore.q_ = true := by
      have : s.mem.next_ (.sentinel semaphore.q_) = none := hl
      simp [queue_base.empty, this]
    have hres : ∀ r, r = some s → loop_result s [] d r := by
      intro r hr
      exact ⟨s.mem, by simp [hr], by simpa using hl, by simpa using hd, by simpa using hb, rfl⟩
    refine ⟨fun fuel hf => ?_, fun fuel hf => ?_⟩
    · obtain ⟨f, rfl⟩ : ∃ f, fuel = f + 1 := ⟨fuel - 1, by omega⟩
      exact hres _ (by simp [semaphore.async_wait_loop, he])
    · obtain ⟨f, rfl⟩ : ∃ f, fuel = f + 1 := ⟨fuel - 1, by omega⟩
      exact hres _ (by simp [semaphore.async_wait_loop, he])
  | cons a l ih =>
    intro s d hl hd hb hdis
    have he : queue_base.empty s.mem semaphore.q_ = false := by
      have : s.mem.next_ (.sentinel semaphore.q_) = some (.node a) := hl.1
      simp [queue_base.empty, this]
    have hA : ∀ fuel, 2 * min s.n_ (a :: l).length + 1 ≤ fuel →
        loop_result s (a :: l) d (semaphore.async_wait_loop fuel s.n_ s) := by
      intro fuel hf
      obtain ⟨f, rfl⟩ : ∃ f, fuel = f + 1 := ⟨fuel - 1, by omega⟩
      by_cases hc : s.n_ = 0
      · refine ⟨s.mem, ?_, by simpa [hc] using hl, by simpa [hc] using hd,
          by simpa [hc] using hb, rfl⟩
        simp only [semaphore.async_wait_loop, hc, gt_iff_lt, lt_self_iff_false, decide_False,
          Bool.false_and, Bool.false_eq_true, if_false, Nat.zero_min, Nat.sub_zero]
        cases s
        simp_all
      · have hpos : 0 < s.n_ := Nat.pos_of_ne_zero hc
        obtain ⟨m2, h1, h2, h3, h4, h5, h6⟩ := move_front s.mem a l d hl hd hb hdis
        have hmin : min s.n_ (a :: l).length = min (s.n_ - 1) l.length + 1 := by
          simp only [List.length_cons]; omega
        obtain ⟨m3, r1, r2, r3, r4, r5⟩ :=
          (ih { n_ := s.n_ - 1, mem := m2, log := s.log } (d ++ [a]) h2 h3 h4 h6).2 f
            (by simp only [hmin] at hf; simpa using (by omega : 2 * min (s.n_ - 1) l.length + 2 ≤ f))
        have hn : s.n_ - 1 + 1 = s.n_ := by omega
        simp only [hn] at r1
        refine ⟨m3, ?_, ?_, ?_, ?_, ?_⟩
        · rw [semaphore.async_wait_loop]
          simp only [hpos, he, gt_iff_lt, decide_True, Bool.not_false, Bool.and_self, if_true,
            semaphore.compare_exchange]
          simp only [h1, r1]
          congr 2
          show s.n_ - 1 - min (s.n_ - 1) l.length = s.n_ - min s.n_ (a :: l).length
          rw [hmin]; omega
        · rw [hmin]; simpa using r2
        · rw [hmin]; simpa using r3
        · rw [hmin]; simpa using r4
        · rw [r5, h5]
    refine ⟨hA, fun fuel hf => ?_⟩
    obtain ⟨f, rfl⟩ : ∃ f, fuel = f + 1 := ⟨fuel - 1, by omega⟩
    have h := hA f (by omega)
    have hne : s.n_ ≠ s.n_ + 1 := by omega
    rw [semaphore.async_wait_loop]
    simp only [he, gt_iff_lt, Nat.zero_lt_succ, decide_True, Bool.not_false, Bool.and_self, if_true,
      semaphore.compare_exchange, hne, if_false]
    exact h

/-- The locked part of `async_wait` on a queue whose `back_` is right: the new
node is linked last, then the first `min c (|l| + 1)` nodes are handed over and
completed in order after the unlock. -/
theorem async_wait_locked_spec (fuel : Nat) (s : semaphore) (l : List Nat) (h : Nat)
    (hq : holds s.mem (.sentinel semaphore.q_) l)
    (hb : s.mem.back_ semaphore.q_ = some (chain_end (.sentinel semaphore.q_) l))
    (hh : h ∉ l) (hn : s.mem.next_ (.node h) = none)
    (hf : 2 * min s.n_ (l.length + 1) + 1 ≤ fuel) :
    ∃ m1, semaphore.async_wait_locked fuel s (.node h) =
        some { n_ := s.n_ - min s.n_ (l.length + 1), mem := m1,
               log := s.log ++ [Event.lock, Event.unlock] ++
                 ((l ++ [h]).take (min s.n_ (l.length + 1))).map
                   (fun a => Event.complete (.node a)) } ∧
      holds m1 (.sentinel semaphore.q_) ((l ++ [h]).drop (min s.n_ (l.length + 1))) ∧
      m1.back_ semaphore.q_ = some (.node h) := by
  let m1 := (s.mem.store_next (chain_end (.sentinel semaphore.q_) l)
    (some (.node h))).store_back semaphore.q_ (some (.node h))
  have hpush : queue_base.push s.mem semaphore.q_ (some (.node h)) = some m1 := by
    simp [queue_base.push, hb, m1]
  have hq1 : holds m1 (.sentinel semaphore.q_) (l ++ [h]) := by
    have := holds_snoc s.mem _ l h hq hh (by simp) hn
    exact holds_congr (s.mem.store_next (chain_end (.sentinel semaphore.q_) l)
      (some (.node h))) m1 _ _ rfl (fun _ _ => rfl) this
  have hnd := holds_nodup _ _ _ hq1
  let s3 : semaphore :=
    { n_ := s.n_, mem := queue_base.ctor m1 semaphore.ops, log := s.log ++ [Event.lock] }
  have hlen : (l ++ [h]).length = l.length + 1 := by simp
  obtain ⟨m3, r1, r2, r3, r4, r5⟩ := (async_wait_loop_spec (l ++ [h]) s3 []
    (ctor_ops_holds _ _ _ (by simp) hq1) (by simp [s3, holds, queue_base.ctor])
    (by simp [s3, queue_base.ctor, chain_end]) (by simp)).1 fuel (by simpa [s3, hlen] using hf)
  simp only [s3, hlen, List.nil_append] at r1 r2 r3 r4 r5
  obtain ⟨m4, hd1, hd2, hd3, hd4⟩ := drain_spec fuel
    { n_ := s.n_ - min s.n_ (l.length + 1), mem := m3,
      log := s.log ++ [Event.lock] ++ [Event.unlock] }
    ((l ++ [h]).take (min s.n_ (l.length + 1))) r3
    (by simp only [List.length_take, hlen]; omega)
  refine ⟨m4, ?_, ?_, ?_⟩
  · simp only [semaphore.async_wait_locked, semaphore.emit, hpush]
    show (match semaphore.async_wait_loop fuel s3.n_ s3 with
      | none => none
      | some s4 =>
        match semaphore.drain fuel (s4.emit .unlock) with
        | none => none
        | some s5 => semaphore.ops_dtor s5) = _
    rw [show s3.n_ = s.n_ from rfl, r1]
    simp only [semaphore.emit]
    rw [hd1]
    simp only [List.append_assoc, List.singleton_append]
    exact ops_dtor_empty _ hd2
  · exact hd4 _ _ (by simp) (by simp) (take_disjoint_drop _ _ hnd) r2
  · rw [hd3]
    show m3.back_ semaphore.q_ = _
    rw [r5]
    simp [queue_base.ctor, m1]

/-- The locked part of `async_wait` on an empty queue whose `back_` is stale:
the new node is linked behind the stale node, `q_` stays empty and nothing is
completed, whatever the counter. -/
theorem async_wait_locked_stale (fuel : Nat) (s : semaphore) (op : Addr) (i : Nat)
    (hq : holds s.mem (.sentinel semaphore.q_) [])
    (hb : s.mem.back_ semaphore.q_ = some (.node i)) (hf : 1 ≤ fuel) :
    semaphore.async_wait_locked fuel s op =
      some { n_ := s.n_,
             mem := queue_base.ctor ((s.mem.store_next (.node i) (some op)).store_back
               semaphore.q_ (some op)) semaphore.ops,
             log := s.log ++ [Event.lock, Event.unlock] } := by
  obtain ⟨f, rfl⟩ : ∃ f, fuel = f + 1 := ⟨fuel - 1, by omega⟩
  have h0 : s.mem.next_ (.sentinel semaphore.q_) = none := hq
  have hpush : queue_base.push s.mem semaphore.q_ (some op) =
      some ((s.mem.store_next (.node i) (some op)).store_back semaphore.q_ (some op)) := by
    simp [queue_base.push, hb]
  have hemp : queue_base.empty (queue_base.ctor ((s.mem.store_next (.node i)
      (some op)).store_back semaphore.q_ (some op)) semaphore.ops) semaphore.q_ = true := by
    simp [queue_base.empty, queue_base.ctor, h0]
  have hpop : ∀ m : Heap, queue_base.pop (queue_base.ctor m semaphore.ops) semaphore.ops =
      (none, queue_base.ctor m semaphore.ops) :=
    fun m => pop_nil _ _ (by simp [holds, queue_base.ctor])
  simp only [semaphore.async_wait_locked, semaphore.emit, hpush, semaphore.async_wait_loop, hemp,
    Bool.not_true, Bool.and_false, Bool.false_eq_true, if_false, semaphore.drain]
  rw [hpop]
  simp only []
  rw [ops_dtor_empty]
  · simp
  · simp [holds, queue_base.ctor]

/-! ## What a call appends to the log -/

theorem drain_log (fuel : Nat) (s s1 : semaphore) (h : semaphore.drain fuel s = some s1) :
    ∃ cs : List Addr, s1.log = s.log ++ cs.map Event.complete := by
  induction fuel generalizing s with
  | zero => simp [semaphore.drain] at h
  | succ f ih =>
    rw [semaphore.drain] at h
    rcases hp : queue_base.pop s.mem semaphore.ops with ⟨o, m⟩
    rw [hp] at h
    cases o with
    | none =>
      simp only [Option.some.injEq] at h
      exact ⟨[], by rw [← h]; simp⟩
    | some p =>
      simp only at h
      obtain ⟨cs, hcs⟩ := ih _ h
      exact ⟨p :: cs, by rw [hcs]; simp [nullary_op_base.complete]⟩

theorem async_wait_loop_log (fuel n : Nat) (s s1 : semaphore)
    (h : semaphore.async_wait_loop fuel n s = some s1) : s1.log = s.log := by
  induction fuel generalizing n s with
  | zero => simp [semaphore.async_wait_loop] at h
  | succ f ih =>
    rw [semaphore.async_wait_loop] at h
    split at h
    · simp only [semaphore.compare_exchange] at h
      split at h
      · split at h
        · exact absurd h (by simp)
        · have h2 := ih _ _ h
          simpa using h2
      · have h2 := ih _ _ h
        simpa using h2
    · simp only [Option.some.injEq] at h
      rw [h]

theorem ops_dtor_log (s s1 : semaphore) (h : semaphore.ops_dtor s = some s1) :
    ∃ ds : List Addr, s1.log = s.log ++ ds.map Event.destroy := by
  simp only [semaphore.ops_dtor, queue.dtor] at h
  cases hp : queue_base.head s.mem semaphore.ops with
  | none =>
    simp only [hp, queue.dtor_loop, Option.some.injEq] at h
    exact ⟨[], by rw [← h]; simp⟩
  | some p => simp [hp, queue.dtor_loop] at h

theorem ncul_destroys (b : Bool) (ds : List Addr) :
    no_complete_under_lock b (ds.map Event.destroy) = true := by
  induction ds with
  | nil => rfl
  | cons a ds ih => simpa [no_complete_under_lock] using ih

theorem ncul_completes (cs ds : List Addr) :
    no_complete_under_lock false (cs.map Event.complete ++ ds.map Event.destroy) = true := by
  induction cs with
  | nil => simpa using ncul_destroys false ds
  | cons a cs ih => simpa [no_complete_under_lock] using ih

theorem ncul_locked (cs ds : List Addr) :
    no_complete_under_lock false
      ([Event.lock, Event.unlock] ++ (cs.map Event.complete ++ ds.map Event.destroy)) = true := by
  simpa [no_complete_under_lock] using ncul_completes cs ds

/-- Whatever the state, the events of the locked part of `post()` are a lock,
an unlock, and then at most one `complete()`. -/
theorem post_locked_log (s s1 : semaphore) (h : semaphore.post_locked s = some s1) :
    ∃ cs ds : List Addr, s1.log =
      s.log ++ ([Event.lock, Event.unlock] ++ (cs.map Event.complete ++ ds.map Event.destroy)) := by
  simp only [semaphore.post_locked, semaphore.emit] at h
  split at h
  · simp only [Option.some.injEq] at h
    rename_i op m _
    exact ⟨[op], [], by rw [← h]; simp [nullary_op_base.complete]⟩
  · split at h
    · simp only [Option.some.injEq] at h
      exact ⟨[], [], by rw [← h]; simp⟩
    · exact absurd h (by simp)

/-- Whatever the state, the events of the locked part of `post(n)` are a lock,
an unlock, and then calls of `complete()`. -/
theorem post_n_locked_log (fuel : Nat) (s : semaphore) (k : Nat) (s1 : semaphore)
    (h : semaphore.post_n_locked fuel s k = some s1) :
    ∃ cs ds : List Addr, s1.log =
      s.log ++ ([Event.lock, Event.unlock] ++ (cs.map Event.complete ++ ds.map Event.destroy)) := by
  simp only [semaphore.post_n_locked, semaphore.emit] at h
  split at h
  · exact absurd h (by simp)
  · rename_i n1 m _
    split at h
    · exact absurd h (by simp)
    · rename_i s5 hs5
      have hlog5 : s5.log = s.log ++ [Event.lock] := by
        split at hs5
        · split at hs5
          · simp only [Option.some.injEq] at hs5; rw [← hs5]
          · exact absurd hs5 (by simp)
        · simp only [Option.some.injEq] at hs5; rw [← hs5]
      split at h
      · exact absurd h (by simp)
      · rename_i s6 hs6
        obtain ⟨cs, hcs⟩ := drain_log _ _ _ hs6
        obtain ⟨ds, hds⟩ := ops_dtor_log _ _ h
        exact ⟨cs, ds, by rw [hds, hcs]; simp [hlog5]⟩

/-- Whatever the state, the events of the locked part of `async_wait` are a
lock, an unlock, and then calls of `complete()`. -/
theorem async_wait_locked_log (fuel : Nat) (s : semaphore) (op : Addr) (s1 : semaphore)
    (h : semaphore.async_wait_locked fuel s op = some s1) :
    ∃ cs ds : List Addr, s1.log =
      s.log ++ ([Event.lock, Event.unlock] ++ (cs.map Event.complete ++ ds.map Event.destroy)) := by
  simp only [semaphore.async_wait_locked, semaphore.emit] at h
  split at h
  · exact absurd h (by simp)
  · split at h
    · exact absurd h (by simp)
    · rename_i s4 hs4
      have hlog4 := async_wait_loop_log _ _ _ _ hs4
      split at h
      · exact absurd h (by simp)
      · rename_i s5 hs5
        obtain ⟨cs, hcs⟩ := drain_log _ _ _ hs5
        obtain ⟨ds, hds⟩ := ops_dtor_log _ _ h
        exact ⟨cs, ds, by rw [hds, hcs]; simp [hlog4]⟩

/-- Whatever the state, a call that returns has appended events among which no
`complete()` comes between a lock and its unlock. -/
theorem step_log (fuel : Nat) (s : semaphore) (c : semaphore.Call) (r : semaphore.Ret)
    (s1 : semaphore) (h : semaphore.step fuel s c = some (r, s1)) :
    ∃ ev, s1.log = s.log ++ ev ∧ no_complete_under_lock false ev = true := by
  cases c with
  | post =>
    obtain ⟨h2, hr⟩ : semaphore.post s = some s1 ∧ r = .done := by
      cases hp : semaphore.post s with
      | none => simp [semaphore.step, hp] at h
      | some s2 =>
        simp only [semaphore.step, hp, Option.map_some', Option.some.injEq, Prod.mk.injEq] at h
        exact ⟨by rw [h.2], h.1.symm⟩
    by_cases hpos : 0 < s.n_
    · simp only [semaphore.post, semaphore.try_post_fast_path, hpos, gt_iff_lt, if_true,
        Option.some.injEq] at h2
      exact ⟨[], by rw [← h2]; simp, rfl⟩
    · simp only [semaphore.post, semaphore.try_post_fast_path, hpos, gt_iff_lt, if_false] at h2
      obtain ⟨cs, ds, hl⟩ := post_locked_log _ _ h2
      exact ⟨_, hl, ncul_locked cs ds⟩
  | post_n k =>
    obtain ⟨h2, hr⟩ : semaphore.post_n fuel s k = some s1 ∧ r = .done := by
      cases hp : semaphore.post_n fuel s k with
      | none => simp [semaphore.step, hp] at h
      | some s2 =>
        simp only [semaphore.step, hp, Option.map_some', Option.some.injEq, Prod.mk.injEq] at h
        exact ⟨by rw [h.2], h.1.symm⟩
    by_cases hk : k = 0
    · simp only [semaphore.post_n, hk, if_true, Option.some.injEq] at h2
      exact ⟨[], by rw [← h2]; simp, rfl⟩
    by_cases hpos : 0 < s.n_
    · simp only [semaphore.post_n, hk, semaphore.try_post_fast_path, hpos, gt_iff_lt, if_true,
        if_false, Option.some.injEq] at h2
      exact ⟨[], by rw [← h2]; simp, rfl⟩
    · simp only [semaphore.post_n, hk, semaphore.try_post_fast_path, hpos, gt_iff_lt,
        if_false] at h2
      obtain ⟨cs, ds, hl⟩ := post_n_locked_log _ _ _ _ h2
      exact ⟨_, hl, ncul_locked cs ds⟩
  | try_wait =>
    simp only [semaphore.step, Option.some.injEq, Prod.mk.injEq] at h
    obtain ⟨_, h2⟩ := h
    by_cases hpos : 0 < s.n_
    · simp only [semaphore.try_wait, hpos, gt_iff_lt, if_true] at h2
      exact ⟨[], by rw [← h2]; simp, rfl⟩
    · simp only [semaphore.try_wait, hpos, gt_iff_lt, if_false] at h2
      exact ⟨[], by rw [← h2]; simp, rfl⟩
  | async_wait x o =>
    simp only [semaphore.step] at h
    by_cases hpos : 0 < s.n_
    · simp only [semaphore.async_wait, semaphore.try_wait, hpos, gt_iff_lt, if_true,
        semaphore.emit, Option.some.injEq, Prod.mk.injEq] at h
      exact ⟨[Event.execute x], by rw [← h.2], rfl⟩
    · simp only [semaphore.async_wait, semaphore.try_wait, hpos, gt_iff_lt, if_false] at h
      split at h
      · simp only [Option.some.injEq, Prod.mk.injEq] at h
        exact ⟨[], by rw [← h.2]; simp, rfl⟩
      · split at h
        · exact absurd h (by simp)
        · rename_i s2 hs2
          simp only [Option.some.injEq, Prod.mk.injEq] at h
          obtain ⟨cs, ds, hl⟩ := async_wait_locked_log _ _ _ _ hs2
          refine ⟨[Event.make_op x] ++ ([Event.lock, Event.unlock] ++
            (cs.map Event.complete ++ ds.map Event.destroy)), ?_, ?_⟩
          · rw [← h.2, hl]; simp [semaphore.emit]
          · simpa [no_complete_under_lock] using ncul_completes cs ds

theorem summarised_of_reached (s : semaphore) (l : List Nat) (h : queue_reached s.mem l) :
    ∃ a : Abs, summarised_by s a ∧ a.q = l ∧ a.c = s.n_ := by
  obtain ⟨hq, hb | ⟨hl, i, hi⟩⟩ := h
  · exact ⟨{ c := s.n_, q := l, valid := true, log := s.log },
      ⟨rfl, rfl, hq, fun _ => hb, fun e => by simp at e⟩, rfl, rfl⟩
  · exact ⟨{ c := s.n_, q := l, valid := false, log := s.log },
      ⟨rfl, rfl, hq, fun e => by simp at e, fun _ => ⟨hl, i, hi⟩⟩, rfl, rfl⟩

/-! ## C1 -/

theorem try_wait_times_pos (k : Nat) (s : semaphore) (h : k ≤ s.n_) :
    (semaphore.try_wait_times k s).1 = List.replicate k true ∧
      (semaphore.try_wait_times k s).2 = { s with n_ := s.n_ - k } := by
  induction k generalizing s with
  | zero => simp [semaphore.try_wait_times]
  | succ k ih =>
    have hpos : 0 < s.n_ := by omega
    have h1 : semaphore.try_wait s = (true, { s with n_ := s.n_ - 1 }) := by
      simp [semaphore.try_wait, hpos]
    have := ih { s with n_ := s.n_ - 1 } (by simp; omega)
    simp only [semaphore.try_wait_times, h1, this, List.replicate_succ, true_and]
    simp
    omega

/-- C1: `try_wait()` returns true exactly when the counter is positive; on true
the counter is decremented, on false it is unchanged (nothing else changes in
either case); on a semaphore constructed with count `n`, the first `n` of
`n + 1` sequential calls return true, the last returns false, and the counter
ends at 0. -/
theorem C1_try_wait :
    (∀ s : semaphore,
      ((semaphore.try_wait s).1 = true ↔ 0 < s.n_) ∧
      ((semaphore.try_wait s).1 = true →
        (semaphore.try_wait s).2 = { s with n_ := s.n_ - 1 }) ∧
      ((semaphore.try_wait s).1 = false → (semaphore.try_wait s).2 = s)) ∧
    (∀ n : Nat,
      (semaphore.try_wait_times (n + 1) (semaphore.ctor n)).1
          = List.replicate n true ++ [false] ∧
      (semaphore.try_wait_times n (semaphore.ctor n)).2.n_ = 0 ∧
      (semaphore.try_wait_times (n + 1) (semaphore.ctor n)).2.n_ = 0) := by
  refine ⟨fun s => ?_, fun n => ?_⟩
  · by_cases h : 0 < s.n_
    · simp [semaphore.try_wait, h]
    · simp [semaphore.try_wait, h]
  · have hn := try_wait_times_pos n (semaphore.ctor n) (le_refl _)
    have key : ∀ (k : Nat) (s : semaphore),
        semaphore.try_wait_times (k + 1) s =
          ((semaphore.try_wait_times k s).1 ++
              [(semaphore.try_wait (semaphore.try_wait_times k s).2).1],
            (semaphore.try_wait (semaphore.try_wait_times k s).2).2) := by
      intro k
      induction k with
      | zero => intro s; simp [semaphore.try_wait_times]
      | succ k ih =>
        intro s
        rw [semaphore.try_wait_times, ih]
        simp [semaphore.try_wait_times]
    rw [key, hn.1, hn.2]
    simp [semaphore.try_wait, semaphore.ctor]


/-! ## C2 -/

/-- C2: from a state with counter 0 whose queue holds the waiters `l`, `post(k)`
with `k >= 1` completes exactly the first `min k |l|` waiters in queue order,
leaves the others queued in their order, and sets the counter to
`k - min k |l|`. -/
theorem C2_post_n_completes_front (s : semaphore) (l : List Nat) (k fuel : Nat)
    (hc : s.n_ = 0) (hq : queue_holds s.mem semaphore.q_ l) (hk : 1 ≤ k)
    (hks : k < semaphore.SIZE) (hf : min k l.length + 1 ≤ fuel) :
    ∃ s1, semaphore.post_n fuel s k = some s1 ∧
      s1.log = s.log ++ [Event.lock, Event.unlock] ++
        (l.take (min k l.length)).map (fun a => Event.complete (.node a)) ∧
      queue_holds s1.mem semaphore.q_ (l.drop (min k l.length)) ∧
      (l.drop (min k l.length)).length = l.length - min k l.length ∧
      s1.n_ = k - min k l.length := by
  obtain ⟨m1, h1, h2, _⟩ := post_n_locked_spec fuel s l k hq hf
  have hk0 : k ≠ 0 := by omega
  have htake : l.take (min k l.length) = l.take k := by
    rcases Nat.le_total k l.length with h | h
    · rw [Nat.min_eq_left h]
    · rw [Nat.min_eq_right h, List.take_of_length_le h, List.take_length]
  have hdrop : l.drop (min k l.length) = l.drop k := by
    rcases Nat.le_total k l.length with h | h
    · rw [Nat.min_eq_left h]
    · rw [Nat.min_eq_right h, List.drop_of_length_le h, List.drop_length]
  refine ⟨{ n_ := if 0 < k - min k l.length then
                    (s.n_ + (k - min k l.length)) % semaphore.SIZE else s.n_,
            mem := m1,
            log := s.log ++ [Event.lock, Event.unlock] ++
              (l.take k).map (fun a => Event.complete (.node a)) }, ?_, ?_, ?_, ?_, ?_⟩
  · have hfast : semaphore.try_post_fast_path s k = (false, s) := by
      simp [semaphore.try_post_fast_path, hc]
    simp only [semaphore.post_n, hk0, if_false, hfast]
    exact h1
  · simp [htake]
  · rw [hdrop]; exact h2
  · simp
  · show (if 0 < k - min k l.length then (s.n_ + (k - min k l.length)) % semaphore.SIZE
      else s.n_) = _
    rw [hc]
    split
    · simp only [Nat.zero_add]
      exact Nat.mod_eq_of_lt (by omega)
    · omega

/-- C2 at `post(3)` with two waiters queued: both are completed and the counter is 1. -/
theorem C2_post_n_completes_front_witness :
    (two_waiters.n_ = 0 ∧ queue_holds two_waiters.mem semaphore.q_ [1, 2] ∧ 1 ≤ 3 ∧
      3 < semaphore.SIZE ∧ min 3 [1, 2].length + 1 ≤ 3) ∧
    ∃ s1, semaphore.post_n 3 two_waiters 3 = some s1 ∧
      s1.log = two_waiters.log ++ [Event.lock, Event.unlock] ++
        ([1, 2].take (min 3 [1, 2].length)).map (fun a => Event.complete (.node a)) ∧
      queue_holds s1.mem semaphore.q_ ([1, 2].drop (min 3 [1, 2].length)) ∧
      ([1, 2].drop (min 3 [1, 2].length)).length = [1, 2].length - min 3 [1, 2].length ∧
      s1.n_ = 3 - min 3 [1, 2].length :=
  ⟨by decide,
    C2_post_n_completes_front two_waiters [1, 2] 3 3 (by decide) (by decide) (by decide)
      (by decide) (by decide)⟩

/-! ## C3 -/

/-- C3 fails once a waiter has been queued and completed: after `async_wait`,
`post` on a fresh semaphore the counter is 0 and the queue is empty, yet a
further `async_wait` followed by `post()` never completes the new waiter and
leaves the counter at 1. -/
theorem C3_waiter_after_drain_is_lost :
    ∃ s0 s1,
      semaphore.run 1 [.async_wait 1 .ok, .post] (semaphore.ctor 0) = some ([.done, .done], s0) ∧
      s0.n_ = 0 ∧ queue_base.empty s0.mem semaphore.q_ = true ∧
      s0.log.count (Event.complete (.node 1)) = 1 ∧
      semaphore.run 1 [.async_wait 2 .ok, .post] s0 = some ([.done, .done], s1) ∧
      s1.log.count (Event.complete (.node 2)) = 0 ∧
      s1.log.count (Event.execute 2) = 0 ∧
      s1.n_ = 1 := by
  refine ⟨_, _, rfl, ?_, ?_, ?_, rfl, ?_, ?_, ?_⟩ <;> decide

/-! ## C8 -/

/-- C8 fails on a queue that holds nodes: `~queue()` calls `destroy()` on the
front node and then loads the link of that released node, a use after free.
With the waiters 1 and 2 queued, node 1 is destroyed and node 2 is not; with
the single waiter of the spec's scenario, the destructor of the semaphore
faults right after destroying it. -/
theorem C8_teardown_faults_after_first_destroy :
    queue_holds two_waiters.mem semaphore.q_ [1, 2] ∧
    queue.dtor two_waiters.mem semaphore.q_ [] = .fault [Event.destroy (.node 1)] ∧
    semaphore.dtor two_waiters = .fault [Event.destroy (.node 1)] ∧
    (semaphore.run 1 [.async_wait 1 .ok] (semaphore.ctor 0)).map
        (fun r => (r.2.n_, semaphore.dtor r.2)) =
      some (0, .fault [.make_op 1, .lock, .unlock, .destroy (.node 1)]) := by
  decide

/-! ## C9 -/

/-- C9: when the counter is 0 and `make_nullary_op` throws, `async_wait` throws
and the semaphore (counter, memory, log of events) is as it was before the call. -/
theorem C9_async_wait_failure_atomic (fuel : Nat) (s : semaphore) (h : Nat) (o : alloc_outcome)
    (hc : s.n_ = 0) (ho : o ≠ .ok) :
    semaphore.async_wait fuel s h o = some (.threw, s) := by
  have h1 : make_nullary_op s.mem h o = none := by
    cases o <;> simp_all [make_nullary_op]
  simp [semaphore.async_wait, semaphore.try_wait, hc, h1]

/-- C9 with two waiters queued and an allocation that throws. -/
theorem C9_async_wait_failure_atomic_witness :
    (two_waiters.n_ = 0 ∧ alloc_outcome.allocate_throws ≠ alloc_outcome.ok) ∧
    semaphore.async_wait 0 two_waiters 3 .allocate_throws = some (.threw, two_waiters) :=
  ⟨by decide, C9_async_wait_failure_atomic 0 two_waiters 3 .allocate_throws (by decide) (by decide)⟩

/-! ## C10 -/

/-- C10 fails after the queue has been drained: `push 1; pop; push 2` on a fresh
queue leaves `empty()` true and the next `pop()` returns null although node 2
was pushed and never popped. -/
theorem C10_push_after_drain_is_lost :
    ∃ m1 m2 m3,
      queue_base.push (queue_base.ctor Heap.init 0) 0 (some (.node 1)) = some m1 ∧
      queue_base.pop m1 0 = (some (.node 1), m2) ∧
      queue_base.push m2 0 (some (.node 2)) = some m3 ∧
      queue_base.empty m3 0 = true ∧
      (queue_base.pop m3 0).1 = none := by
  refine ⟨_, _, _, rfl, rfl, rfl, ?_, ?_⟩ <;> decide

/-! ## C4 -/

/-- After every call of a sequential execution that starts from a freshly
constructed semaphore, a positive counter implies that no node is linked in
`q_`, and a node linked in `q_` implies that the counter is 0.  This is about
the nodes `q_.empty()` sees, not about the waiters that are suspended. -/
theorem q_empty_when_counter_positive (fuel n0 : Nat) (cs : List semaphore.Call)
    (hnd : (handlers cs).Nodup) (hf : cs.length + 1 ≤ fuel) (k : Nat) :
    ∃ rs s, semaphore.run fuel (cs.take k) (semaphore.ctor n0) = some (rs, s) ∧
      (0 < s.n_ → queue_base.empty s.mem semaphore.q_ = true) ∧
      (queue_base.empty s.mem semaphore.q_ = false → s.n_ = 0) := by
  obtain ⟨s, h1, h2⟩ := run_from_ctor fuel n0 (cs.take k) (handlers_take_nodup cs k hnd)
    (by simp; omega)
  have hex := abs_run_exclusion (cs.take k) (Abs.init n0) (fun _ => rfl)
  have hemp := empty_iff_of_summarised s _ h2
  have hc : s.n_ = ((Abs.init n0).run (cs.take k)).2.c := h2.1
  have key : 0 < s.n_ → queue_base.empty s.mem semaphore.q_ = true := by
    intro hpos
    exact hemp.mpr (hex (by omega))
  refine ⟨_, s, h1, key, ?_⟩
  intro he
  by_contra hne
  have := key (by omega)
  rw [this] at he
  exact absurd he (by simp)

/-- C4 fails once a waiter has been queued and completed: after
`async_wait(h1); post(); async_wait(h2); post()` on a fresh semaphore with
count 0 the counter is 1 while the waiter of `h2` is suspended, its operation
neither completed nor destroyed; `q_.empty()` is true only because the node
was never linked behind the sentinel. -/
theorem C4_permit_banked_while_waiter_suspended :
    (semaphore.run 1 [.async_wait 1 .ok, .post, .async_wait 2 .ok, .post]
        (semaphore.ctor 0)).map
        (fun r => (r.1, r.2.n_, pending r.2.log, completed r.2.log,
          queue_base.empty r.2.mem semaphore.q_)) =
      some ([.done, .done, .done, .done], 1, [.node 2], [.node 1], true) := by
  decide

/-! ## C5 -/

/-- C5: after every call of a sequential execution from a semaphore constructed
with count `n0`, as long as `n0` plus the permits posted stays in the range of
the counter: `n0` + permits posted = `try_wait` calls that returned true +
continuations handed to the executor by `async_wait` + continuations completed
from the queue + the counter. -/
theorem C5_conservation (fuel n0 : Nat) (cs : List semaphore.Call)
    (hnd : (handlers cs).Nodup) (hf : cs.length + 1 ≤ fuel)
    (hb : n0 + posted cs < semaphore.SIZE) (k : Nat) :
    ∃ rs s, semaphore.run fuel (cs.take k) (semaphore.ctor n0) = some (rs, s) ∧
      n0 + posted (cs.take k) =
        claimed rs + ((executed s.log).length + (completed s.log).length) + s.n_ := by
  obtain ⟨s, h1, h2⟩ := run_from_ctor fuel n0 (cs.take k) (handlers_take_nodup cs k hnd)
    (by simp; omega)
  have hle := posted_take_le cs k
  have hcons := abs_run_conservation (cs.take k) (Abs.init n0)
    (by simp only [Abs.init]; omega)
  refine ⟨_, s, h1, ?_⟩
  rw [h2.1, h2.2.1]
  simp only [show (Abs.init n0).c = n0 from rfl, show (Abs.init n0).log = [] from rfl,
    executed, completed, List.length_nil] at hcons
  omega

/-- C5 on `post(2); try_wait; async_wait; async_wait; async_wait; post(3); try_wait`
from count 0. -/
theorem C5_conservation_witness :
    ((handlers [.post_n 2, .try_wait, .async_wait 1 .ok, .async_wait 2 .ok,
        .async_wait 3 .ok, .post_n 3, .try_wait]).Nodup ∧
      [semaphore.Call.post_n 2, .try_wait, .async_wait 1 .ok, .async_wait 2 .ok,
        .async_wait 3 .ok, .post_n 3, .try_wait].length + 1 ≤ 8 ∧
      0 + posted [.post_n 2, .try_wait, .async_wait 1 .ok, .async_wait 2 .ok,
        .async_wait 3 .ok, .post_n 3, .try_wait] < semaphore.SIZE) ∧
    ∃ rs s, semaphore.run 8 ([semaphore.Call.post_n 2, .try_wait, .async_wait 1 .ok,
        .async_wait 2 .ok, .async_wait 3 .ok, .post_n 3, .try_wait].take 7)
        (semaphore.ctor 0) = some (rs, s) ∧
      0 + posted ([semaphore.Call.post_n 2, .try_wait, .async_wait 1 .ok, .async_wait 2 .ok,
        .async_wait 3 .ok, .post_n 3, .try_wait].take 7) =
        claimed rs + ((executed s.log).length + (completed s.log).length) + s.n_ :=
  ⟨by decide,
    C5_conservation 8 0 [.post_n 2, .try_wait, .async_wait 1 .ok, .async_wait 2 .ok,
      .async_wait 3 .ok, .post_n 3, .try_wait] (by decide) (by decide) (by decide) 7⟩

/-! ## C6 -/

/-- C6: after every call of a sequential execution from a fresh semaphore, the
operations completed so far are the first ones enqueued, in enqueue order; so
when `A` was enqueued before `B` and `B` has been completed, `A` was completed
before `B`. -/
theorem C6_fifo (fuel n0 : Nat) (cs : List semaphore.Call)
    (hnd : (handlers cs).Nodup) (hf : cs.length + 1 ≤ fuel) (k : Nat) :
    ∃ rs s, semaphore.run fuel (cs.take k) (semaphore.ctor n0) = some (rs, s) ∧
      completed s.log <+: enqueued s.log ∧ (completed s.log).Sublist (enqueued s.log) ∧
      (enqueued s.log).Nodup ∧
      ∀ (A B : Addr) (l1 l2 l3 : List Addr), enqueued s.log = l1 ++ A :: (l2 ++ B :: l3) →
        B ∈ completed s.log → ∃ l4, completed s.log = l1 ++ A :: (l2 ++ B :: l4) := by
  have hnd2 := handlers_take_nodup cs k hnd
  obtain ⟨s, h1, h2⟩ := run_from_ctor fuel n0 (cs.take k) hnd2 (by simp; omega)
  have hfifo := abs_run_fifo (cs.take k) (Abs.init n0)
    ⟨fun _ => rfl, fun h => by simp [Abs.init] at h⟩
  have hfront := abs_fifo_front _ hfifo
  obtain ⟨l, hl1, hl2, _⟩ := abs_run_enqueued (cs.take k) (Abs.init n0)
  have hpre : completed s.log <+: enqueued s.log := by
    rw [h2.2.1]
    exact (List.prefix_append _ _).trans hfront
  have hnodup : (enqueued s.log).Nodup := by
    rw [h2.2.1, hl2]
    simp only [Abs.init, enqueued, List.nil_append]
    exact (List.Nodup.sublist hl1 hnd2).map node_injective
  exact ⟨_, s, h1, hpre, hpre.sublist, hnodup,
    fun A B l1 l2 l3 hE hB => front_contains_earlier _ _ l1 l2 l3 A B hpre hnodup hE hB⟩

/-- C6 on three waiters queued and then two `post()` calls. -/
theorem C6_fifo_witness :
    ((handlers [.async_wait 1 .ok, .async_wait 2 .ok, .async_wait 3 .ok, .post,
        .post]).Nodup ∧
      [semaphore.Call.async_wait 1 .ok, .async_wait 2 .ok, .async_wait 3 .ok, .post,
        .post].length + 1 ≤ 6) ∧
    ∃ rs s, semaphore.run 6 ([semaphore.Call.async_wait 1 .ok, .async_wait 2 .ok,
        .async_wait 3 .ok, .post, .post].take 5) (semaphore.ctor 0) = some (rs, s) ∧
      completed s.log <+: enqueued s.log ∧ (completed s.log).Sublist (enqueued s.log) ∧
      (enqueued s.log).Nodup ∧
      ∀ (A B : Addr) (l1 l2 l3 : List Addr), enqueued s.log = l1 ++ A :: (l2 ++ B :: l3) →
        B ∈ completed s.log → ∃ l4, completed s.log = l1 ++ A :: (l2 ++ B :: l4) :=
  ⟨by decide,
    C6_fifo 6 0 [.async_wait 1 .ok, .async_wait 2 .ok, .async_wait 3 .ok, .post, .post]
      (by decide) (by decide) 5⟩

/-! ## C7 -/

/-- In a sequential execution from a fresh semaphore, before any destruction,
`complete()` is called at most once on every operation and `destroy()` on
none; the operations completed and those still linked in `q_` are distinct. -/
theorem complete_at_most_once_in_run (fuel n0 : Nat) (cs : List semaphore.Call)
    (hnd : (handlers cs).Nodup) (hf : cs.length + 1 ≤ fuel) :
    ∃ rs s, semaphore.run fuel cs (semaphore.ctor n0) = some (rs, s) ∧
      (∀ a : Addr, s.log.count (Event.complete a) ≤ 1 ∧ Event.destroy a ∉ s.log) ∧
      ∃ q : List Nat, queue_holds s.mem semaphore.q_ q ∧
        (completed s.log ++ q.map Addr.node).Nodup := by
  obtain ⟨s, h1, h2⟩ := run_from_ctor fuel n0 cs hnd hf
  have hfifo := abs_run_fifo cs (Abs.init n0) ⟨fun _ => rfl, fun h => by simp [Abs.init] at h⟩
  have hfront := abs_fifo_front _ hfifo
  obtain ⟨l, hl1, hl2, hl3⟩ := abs_run_enqueued cs (Abs.init n0)
  have hnodup : (enqueued s.log).Nodup := by
    rw [h2.2.1, hl2]
    simp only [Abs.init, enqueued, List.nil_append]
    exact (List.Nodup.sublist hl1 hnd).map node_injective
  have hcq : (completed s.log ++ ((Abs.init n0).run cs).2.q.map Addr.node).Nodup := by
    rw [h2.2.1] at hnodup ⊢
    exact List.Nodup.sublist hfront.sublist hnodup
  have hdes : destroyed s.log = [] := by
    rw [h2.2.1, hl3]; rfl
  refine ⟨_, s, h1, fun a => ⟨?_, ?_⟩, _, h2.2.2.1, hcq⟩
  · rw [count_complete]
    exact List.nodup_iff_count_le_one.mp (List.nodup_append.mp hcq).1 a
  · rw [mem_destroyed, hdes]; simp

/-- What the loop of `~queue()` does after `async_wait(h1); async_wait(h2); post()`
when the load from the released node 2 yields the link of a free list, the
block released before it, which is node 1: it destroys node 2 and then calls
`destroy()` on node 1, which `post()` had completed. -/
theorem teardown_reaches_completed_node :
    ((semaphore.run 2 [.async_wait 1 .ok, .async_wait 2 .ok, .post] (semaphore.ctor 0)).bind
        (fun r => queue.dtor_loop_reading
          (fun a => if a = .node 2 then some (.node 1) else none) 2
          (queue_base.head r.2.mem semaphore.q_) r.2.log)).map
        (fun l => (completed l, destroyed l)) =
      some ([.node 1], [.node 2, .node 1]) := by
  decide

/-- C7 fails when the semaphore is destroyed with a waiter queued: after
`async_wait(h1); async_wait(h2); post()` node 1 is completed and node 2 is
queued; the destructor calls `destroy()` on node 2 and then loads the link of
that released node, a use after free, so what is called `destroy()` on next
is not determined by the program. -/
theorem C7_teardown_faults_with_waiter_queued :
    (semaphore.run 2 [.async_wait 1 .ok, .async_wait 2 .ok, .post] (semaphore.ctor 0)).map
        (fun r => (completed r.2.log, decide (queue_holds r.2.mem semaphore.q_ [2]),
          semaphore.dtor r.2)) =
      some ([.node 1], true,
        .fault [.make_op 1, .lock, .unlock, .make_op 2, .lock, .unlock, .lock, .unlock,
          .complete (.node 1), .destroy (.node 2)]) := by
  decide

/-! ## C11 -/

/-- C11: for distinct queue objects `A` and `B` built from the disjoint node
lists `as` and `bs`, `A.splice(B)` leaves `A` built from `as ++ bs` and `B`
built from nothing (so `B.empty()`), a node pushed onto `B` afterwards is what
`B.pop()` returns, and when `bs` is empty memory is unchanged. -/
theorem C11_splice (m : Heap) (A B : Nat) (as bs : List Nat) (x : Nat)
    (hAB : A ≠ B) (hA : queue_built m A as) (hB : queue_built m B bs)
    (hdis : ∀ a ∈ as, a ∉ bs) :
    ∃ m1, queue_base.splice m A B = some m1 ∧
      queue_built m1 A (as ++ bs) ∧ queue_built m1 B [] ∧ queue_base.empty m1 B = true ∧
      (∃ m2, queue_base.push m1 B (some (.node x)) = some m2 ∧
        queue_base.empty m2 B = false ∧ (queue_base.pop m2 B).1 = some (.node x)) ∧
      (bs = [] → m1 = m) := by
  obtain ⟨hA1, hA2⟩ := hA
  obtain ⟨hB1, hB2⟩ := hB
  have hpushpop : ∀ m1 : Heap, queue_built m1 B [] →
      ∃ m2, queue_base.push m1 B (some (.node x)) = some m2 ∧
        queue_base.empty m2 B = false ∧ (queue_base.pop m2 B).1 = some (.node x) := by
    intro m1 h
    have hb : m1.back_ B = some (.sentinel B) := h.2
    refine ⟨(m1.store_next (.sentinel B) (some (.node x))).store_back B (some (.node x)),
      by simp [queue_base.push, hb], ?_, ?_⟩
    · simp [queue_base.empty]
    · simp [queue_base.pop]
  cases bs with
  | nil =>
    have he : m.next_ (.sentinel B) = none := hB1
    have hs : queue_base.splice m A B = some m := by simp [queue_base.splice, queue_base.empty, he]
    exact ⟨m, hs, by simpa using ⟨hA1, hA2⟩, ⟨hB1, hB2⟩, by simp [queue_base.empty, he],
      hpushpop m ⟨hB1, hB2⟩, fun _ => rfl⟩
  | cons b bs =>
    have he : m.next_ (.sentinel B) = some (.node b) := hB1.1
    have htail : holds m (.node b) bs := hB1.2
    let m0 := m.store_next (.sentinel B) none
    have hA0 : holds m0 (.sentinel A) as :=
      holds_congr m m0 _ _ (by simp [m0, hAB]) (fun _ _ => by simp [m0]) hA1
    have htail0 : holds m0 (.node b) bs :=
      holds_congr m m0 _ _ (by simp [m0]) (fun _ _ => by simp [m0]) htail
    have hjoin := holds_join m0 (.sentinel A) as b bs hA0 htail0 (by simp) hdis
    let m1 := m0.store_next (chain_end (.sentinel A) as) (some (.node b))
    let m2 := (m1.store_back B (some (.sentinel B))).store_back A
      (some (chain_end (.sentinel B) (b :: bs)))
    have hs : queue_base.splice m A B = some m2 := by
      simp [queue_base.splice, queue_base.empty, he, hA2, hB2, m2, m1, m0]
    have hce : chain_end (.sentinel A) as ≠ .sentinel B := by
      rcases chain_end_cases (.sentinel A) as with e | ⟨y, _, e⟩
      · rw [e]; simpa using hAB
      · rw [e]; simp
    have hbuiltB : queue_built m2 B [] := by
      refine ⟨?_, ?_⟩
      · show m2.next_ (.sentinel B) = none
        simp [m2, m1, m0, Ne.symm hce]
      · simp [m2, chain_end, Ne.symm hAB]
    refine ⟨m2, hs, ⟨?_, ?_⟩, hbuiltB, ?_, hpushpop m2 hbuiltB, fun h => by simp at h⟩
    · exact holds_congr m1 m2 _ _ rfl (fun _ _ => rfl) hjoin
    · simp [m2, chain_end_append, chain_end]
    · have : m2.next_ (.sentinel B) = none := hbuiltB.1
      simp [queue_base.empty, this]

/-- C11 on the queue holding nodes 1, 2 spliced with the queue holding node 3. -/
theorem C11_splice_witness :
    ((0 : Nat) ≠ 1 ∧ queue_built two_queues 0 [1, 2] ∧ queue_built two_queues 1 [3] ∧
      ∀ a ∈ [1, 2], a ∉ [3]) ∧
    ∃ m1, queue_base.splice two_queues 0 1 = some m1 ∧
      queue_built m1 0 ([1, 2] ++ [3]) ∧ queue_built m1 1 [] ∧ queue_base.empty m1 1 = true ∧
      (∃ m2, queue_base.push m1 1 (some (.node 4)) = some m2 ∧
        queue_base.empty m2 1 = false ∧ (queue_base.pop m2 1).1 = some (.node 4)) ∧
      ([3] = [] → m1 = two_queues) :=
  ⟨by decide, C11_splice two_queues 0 1 [1, 2] [3] 4 (by decide) (by decide) (by decide)
    (by decide)⟩

/-! ## C12 -/

/-- C12 fails for an empty source: after `B` is move-constructed from the fresh
queue `A`, `B.back_` points to the sentinel of `A`; a node pushed onto `B` is
linked behind the sentinel of `A`, `B.empty()` stays true and `B.pop()` returns
null. -/
theorem C12_move_from_empty_breaks_push :
    ∃ m1 m2,
      queue_base.move_ctor (queue_base.ctor Heap.init 0) 1 0 = m1 ∧
      queue_base.empty m1 0 = true ∧ queue_base.empty m1 1 = true ∧
      m1.back_ 1 = some (.sentinel 0) ∧ m1.back_ 0 = none ∧
      queue_base.push m1 1 (some (.node 1)) = some m2 ∧
      queue_base.empty m2 1 = true ∧ (queue_base.pop m2 1).1 = none ∧
      queue_base.head m2 0 = some (.node 1) := by
  refine ⟨_, _, rfl, ?_, ?_, ?_, ?_, rfl, ?_, ?_, ?_⟩ <;> decide

/-! ## C15 -/

/-- C15 fails in a state with counter 0 reached by `async_wait; post()`:
the next `async_wait` creates its operation and returns with the counter at 0,
but the node is not linked into `q_`, which is still empty. -/
theorem C15_slow_path_node_not_queued :
    ∃ s0 s1,
      semaphore.run 1 [.async_wait 1 .ok, .post] (semaphore.ctor 0) = some ([.done, .done], s0) ∧
      s0.n_ = 0 ∧
      semaphore.async_wait 1 s0 2 .ok = some (.done, s1) ∧
      s1.n_ = 0 ∧ s1.log = s0.log ++ [.make_op 2, .lock, .unlock] ∧
      queue_base.empty s1.mem semaphore.q_ = true ∧
      ¬ queue_holds s1.mem semaphore.q_ [2] := by
  refine ⟨_, _, rfl, ?_, rfl, ?_, ?_, ?_, ?_⟩ <;> decide

/-! ## C16 -/

/-- C16 fails when the interleaved `post(k)` drains the queue: with waiter 1
queued, `async_wait` for handler 2 fails its `try_wait`, `post(2)` then
completes waiter 1 and banks one permit, and the locked section of
`async_wait` pushes node 2 behind the stale `back_`: `q_` stays empty, nothing
is completed, the counter stays 1 and waiter 2 is left suspended. -/
theorem C16_revalidation_misses_new_waiter :
    ∃ s1 s2 s3,
      semaphore.async_wait 1 (semaphore.ctor 0) 1 .ok = some (.done, s1) ∧
      semaphore.try_wait s1 = (false, s1) ∧
      semaphore.post_n 2 s1 2 = some s2 ∧ s2.n_ = 1 ∧
      semaphore.async_wait_locked 1
        ({ s2 with mem := s2.mem.store_next (.node 2) none }.emit (.make_op 2)) (.node 2)
        = some s3 ∧
      s3.n_ = 1 ∧ queue_base.empty s3.mem semaphore.q_ = true ∧
      s3.log.count (Event.complete (.node 2)) = 0 ∧
      completed s3.log = [.node 1] := by
  refine ⟨_, _, _, rfl, rfl, rfl, ?_, rfl, ?_, ?_, ?_, ?_⟩ <;> decide

/-! ## C17 -/

/-- C17 fails when another `post()` completes between the fast-path check and
the lock: on a fresh semaphore with count 0 the fast path fails, the other
`post()` leaves the counter at 1, and the locked part then finds no waiter,
increments the counter to 2 and the `assert(q_.empty() && n_ == 1)` fails. -/
theorem C17_post_assert_fails_after_other_post :
    ∃ s1,
      semaphore.try_post_fast_path (semaphore.ctor 0) 1 = (false, semaphore.ctor 0) ∧
      semaphore.post (semaphore.ctor 0) = some s1 ∧ s1.n_ = 1 ∧
      (queue_base.pop (s1.emit .lock).mem semaphore.q_).1 = none ∧
      (s1.n_ + 1) % semaphore.SIZE = 2 ∧
      semaphore.post_locked s1 = none := by
  refine ⟨_, rfl, rfl, ?_, ?_, ?_, rfl⟩ <;> decide

/-! ## C18 -/

/-- C18: with a positive counter `c` and `c + k` in range, `post(k)` for
`k >= 1` and `post()` only set the counter to `c + k` (`c + 1`): memory and the
log, hence the queue, are unchanged, so the mutex is not taken and nothing is
completed; and `post(0)` changes nothing in any state. -/
theorem C18_post_fast_path_frame (fuel : Nat) (s : semaphore) (k : Nat)
    (hc : 0 < s.n_) (hk : 1 ≤ k) (hb : s.n_ + k < semaphore.SIZE) :
    semaphore.post_n fuel s k = some { s with n_ := s.n_ + k } ∧
    semaphore.post s = some { s with n_ := s.n_ + 1 } ∧
    (∀ (f : Nat) (t : semaphore), semaphore.post_n f t 0 = some t) := by
  have hk0 : k ≠ 0 := by omega
  have h1 : s.n_ + 1 < semaphore.SIZE := by omega
  refine ⟨?_, ?_, ?_⟩
  · simp [semaphore.post_n, hk0, semaphore.try_post_fast_path, hc, Nat.mod_eq_of_lt hb]
  · simp [semaphore.post, semaphore.try_post_fast_path, hc, Nat.mod_eq_of_lt h1]
  · intro f t
    simp [semaphore.post_n]

/-- C18 at `post(3)` on a semaphore with count 5 and two nodes linked. -/
theorem C18_post_fast_path_frame_witness :
    (0 < ({ two_waiters with n_ := 5 } : semaphore).n_ ∧ 1 ≤ 3 ∧
      ({ two_waiters with n_ := 5 } : semaphore).n_ + 3 < semaphore.SIZE) ∧
    (semaphore.post_n 0 { two_waiters with n_ := 5 } 3 =
        some { ({ two_waiters with n_ := 5 } : semaphore) with
          n_ := ({ two_waiters with n_ := 5 } : semaphore).n_ + 3 } ∧
    semaphore.post { two_waiters with n_ := 5 } =
        some { ({ two_waiters with n_ := 5 } : semaphore) with
          n_ := ({ two_waiters with n_ := 5 } : semaphore).n_ + 1 } ∧
    (∀ (f : Nat) (t : semaphore), semaphore.post_n f t 0 = some t)) :=
  ⟨by decide, C18_post_fast_path_frame 0 { two_waiters with n_ := 5 } 3 (by decide) (by decide)
    (by decide)⟩

/-! ## C19 -/

/-- C19 fails at the top of the range: on a semaphore with count `2 ^ 64 - 1`
and no waiter, `post(1)` wraps the counter to 0, which is below the old value,
and a `try_wait()` that succeeded before fails after. -/
theorem C19_post_wraps_counter :
    queue_base.empty (semaphore.ctor (2 ^ 64 - 1)).mem semaphore.q_ = true ∧
    (semaphore.try_wait (semaphore.ctor (2 ^ 64 - 1))).1 = true ∧
    (semaphore.post_n 1 (semaphore.ctor (2 ^ 64 - 1)) 1).map
        (fun s1 => (s1.n_, decide ((semaphore.ctor (2 ^ 64 - 1)).n_ ≤ s1.n_),
          (semaphore.try_wait s1).1)) = some (0, false, false) := by
  decide

/-- C19 as amended: with no waiter queued, `post(k)` sets the counter `c` to
`(c + k) mod 2 ^ 64`; when `c + k < 2 ^ 64` this is `c + k`, not below `c`, and a
`try_wait()` that succeeded before still succeeds. -/
theorem C19_post_keeps_permits_in_range (fuel : Nat) (s : semaphore) (k : Nat)
    (hq : queue_holds s.mem semaphore.q_ []) (hc : s.n_ < semaphore.SIZE) (hf : 1 ≤ fuel) :
    ∃ s1, semaphore.post_n fuel s k = some s1 ∧
      s1.n_ = (s.n_ + k) % semaphore.SIZE ∧
      (s.n_ + k < semaphore.SIZE →
        s1.n_ = s.n_ + k ∧ s.n_ ≤ s1.n_ ∧
        ((semaphore.try_wait s).1 = true → (semaphore.try_wait s1).1 = true)) := by
  have key : ∃ s1, semaphore.post_n fuel s k = some s1 ∧
      s1.n_ = (s.n_ + k) % semaphore.SIZE := by
    by_cases hk0 : k = 0
    · exact ⟨s, by simp [semaphore.post_n, hk0], by simp [hk0, Nat.mod_eq_of_lt hc]⟩
    by_cases hpos : 0 < s.n_
    · exact ⟨{ s with n_ := (s.n_ + k) % semaphore.SIZE },
        by simp [semaphore.post_n, hk0, semaphore.try_post_fast_path, hpos], rfl⟩
    · have hfast : semaphore.try_post_fast_path s k = (false, s) := by
        simp [semaphore.try_post_fast_path, hpos]
      obtain ⟨m1, h1, _, _⟩ := post_n_locked_spec fuel s [] k hq (by simpa using hf)
      refine ⟨_, by simpa [semaphore.post_n, hk0, hfast] using h1, ?_⟩
      have hkpos : 0 < k := by omega
      simp [hkpos]
  obtain ⟨s1, h1, h2⟩ := key
  refine ⟨s1, h1, h2, fun hb => ?_⟩
  have h3 : s1.n_ = s.n_ + k := by rw [h2, Nat.mod_eq_of_lt hb]
  refine ⟨h3, by omega, ?_⟩
  intro ht
  have hpos : 0 < s.n_ := by
    by_contra hn
    simp [semaphore.try_wait, hn] at ht
  have hpos1 : 0 < s1.n_ := by omega
  simp [semaphore.try_wait, hpos1]

/-- C19 as amended, at `post(3)` on a fresh semaphore with count 5. -/
theorem C19_post_keeps_permits_in_range_witness :
    (queue_holds (semaphore.ctor 5).mem semaphore.q_ [] ∧
      (semaphore.ctor 5).n_ < semaphore.SIZE ∧ 1 ≤ 1) ∧
    ∃ s1, semaphore.post_n 1 (semaphore.ctor 5) 3 = some s1 ∧
      s1.n_ = ((semaphore.ctor 5).n_ + 3) % semaphore.SIZE ∧
      ((semaphore.ctor 5).n_ + 3 < semaphore.SIZE →
        s1.n_ = (semaphore.ctor 5).n_ + 3 ∧ (semaphore.ctor 5).n_ ≤ s1.n_ ∧
        ((semaphore.try_wait (semaphore.ctor 5)).1 = true →
          (semaphore.try_wait s1).1 = true)) :=
  ⟨by decide, C19_post_keeps_permits_in_range 1 (semaphore.ctor 5) 3 (by decide) (by decide)
    (by decide)⟩

/-! ## C13 -/

/-- C13: on a semaphore whose queue has a shape that calls lead to, every call
of `post()`, `post(k)`, `try_wait()` and `async_wait` returns, and so do the
locked parts of `post(k)` and `async_wait` started with any counter value (as
after an interleaved call) and the locked part of `post()` started with a
waiter queued or the counter at 0; among the events each of them appends no
`complete()` comes between a lock and its unlock.  The same holds of any call
that returns from any state at all. -/
theorem C13_no_complete_under_lock (fuel : Nat) (s : semaphore) (l : List Nat)
    (hq : queue_reached s.mem l) (hf : 2 * l.length + 3 ≤ fuel) :
    (∀ c : semaphore.Call, (∀ h ∈ handlers [c], h ∉ l) →
      ∃ r s1 ev, semaphore.step fuel s c = some (r, s1) ∧ s1.log = s.log ++ ev ∧
        no_complete_under_lock false ev = true) ∧
    ((l ≠ [] ∨ s.n_ = 0) →
      ∃ s1 ev, semaphore.post_locked s = some s1 ∧ s1.log = s.log ++ ev ∧
        no_complete_under_lock false ev = true) ∧
    (∀ k : Nat,
      ∃ s1 ev, semaphore.post_n_locked fuel s k = some s1 ∧ s1.log = s.log ++ ev ∧
        no_complete_under_lock false ev = true) ∧
    (∀ h : Nat, h ∉ l → s.mem.next_ (.node h) = none →
      ∃ s1 ev, semaphore.async_wait_locked fuel s (.node h) = some s1 ∧ s1.log = s.log ++ ev ∧
        no_complete_under_lock false ev = true) ∧
    (∀ (f : Nat) (t t1 : semaphore) (c : semaphore.Call) (r : semaphore.Ret) (k : Nat)
        (op : Addr),
      (semaphore.step f t c = some (r, t1) ∨ semaphore.post_locked t = some t1 ∨
        semaphore.post_n_locked f t k = some t1 ∨ semaphore.async_wait_locked f t op = some t1) →
      ∃ ev, t1.log = t.log ++ ev ∧ no_complete_under_lock false ev = true) := by
  refine ⟨?_, ?_, ?_, ?_, ?_⟩
  · intro c hfresh
    obtain ⟨a, ha, haq, _⟩ := summarised_of_reached s l hq
    obtain ⟨s1, h1, _⟩ := step_sim fuel s a c ha (by rw [haq]; exact hfresh) (by rw [haq]; omega)
    obtain ⟨ev, h2, h3⟩ := step_log _ _ _ _ _ h1
    exact ⟨_, s1, ev, h1, h2, h3⟩
  · intro hcase
    have hret : ∃ s1, semaphore.post_locked s = some s1 := by
      cases l with
      | nil =>
        have hn : s.n_ = 0 := by
          rcases hcase with h | h
          · exact absurd rfl h
          · exact h
        have h0 : s.mem.next_ (.sentinel semaphore.q_) = none := hq.1
        exact ⟨_, by simp [semaphore.post_locked, semaphore.emit, pop_nil _ _ hq.1,
          queue_base.empty, h0, hn]; rfl⟩
      | cons a t =>
        exact ⟨_, by simp [semaphore.post_locked, semaphore.emit, pop_cons _ _ a t hq.1]; rfl⟩
    obtain ⟨s1, h1⟩ := hret
    obtain ⟨cs, ds, h2⟩ := post_locked_log _ _ h1
    exact ⟨s1, _, h1, h2, ncul_locked cs ds⟩
  · intro k
    obtain ⟨m1, h1, _, _⟩ := post_n_locked_spec fuel s l k hq.1 (by omega)
    obtain ⟨cs, ds, h2⟩ := post_n_locked_log _ _ _ _ h1
    exact ⟨_, _, h1, h2, ncul_locked cs ds⟩
  · intro h hh hn
    have hret : ∃ s1, semaphore.async_wait_locked fuel s (.node h) = some s1 := by
      obtain ⟨hq1, hb | ⟨hl, i, hi⟩⟩ := hq
      · obtain ⟨m1, h1, _, _⟩ := async_wait_locked_spec fuel s l h hq1 hb hh hn (by omega)
        exact ⟨_, h1⟩
      · subst hl
        exact ⟨_, async_wait_locked_stale fuel s (.node h) i hq1 hi (by omega)⟩
    obtain ⟨s1, h1⟩ := hret
    obtain ⟨cs, ds, h2⟩ := async_wait_locked_log _ _ _ _ h1
    exact ⟨s1, _, h1, h2, ncul_locked cs ds⟩
  · intro f t t1 c r k op h
    rcases h with h | h | h | h
    · exact step_log _ _ _ _ _ h
    · obtain ⟨cs, ds, h2⟩ := post_locked_log _ _ h
      exact ⟨_, h2, ncul_locked cs ds⟩
    · obtain ⟨cs, ds, h2⟩ := post_n_locked_log _ _ _ _ h
      exact ⟨_, h2, ncul_locked cs ds⟩
    · obtain ⟨cs, ds, h2⟩ := async_wait_locked_log _ _ _ _ h
      exact ⟨_, h2, ncul_locked cs ds⟩

/-- C13 on the semaphore with the waiters 1 and 2 queued. -/
theorem C13_no_complete_under_lock_witness :
    (queue_reached two_waiters.mem [1, 2] ∧ 2 * [1, 2].length + 3 ≤ 7) ∧
    ((∀ c : semaphore.Call, (∀ h ∈ handlers [c], h ∉ [1, 2]) →
      ∃ r s1 ev, semaphore.step 7 two_waiters c = some (r, s1) ∧
        s1.log = two_waiters.log ++ ev ∧ no_complete_under_lock false ev = true) ∧
    (([1, 2] : List Nat) ≠ [] ∨ two_waiters.n_ = 0 →
      ∃ s1 ev, semaphore.post_locked two_waiters = some s1 ∧ s1.log = two_waiters.log ++ ev ∧
        no_complete_under_lock false ev = true) ∧
    (∀ k : Nat,
      ∃ s1 ev, semaphore.post_n_locked 7 two_waiters k = some s1 ∧
        s1.log = two_waiters.log ++ ev ∧ no_complete_under_lock false ev = true) ∧
    (∀ h : Nat, h ∉ [1, 2] → two_waiters.mem.next_ (.node h) = none →
      ∃ s1 ev, semaphore.async_wait_locked 7 two_waiters (.node h) = some s1 ∧
        s1.log = two_waiters.log ++ ev ∧ no_complete_under_lock false ev = true) ∧
    (∀ (f : Nat) (t t1 : semaphore) (c : semaphore.Call) (r : semaphore.Ret) (k : Nat)
        (op : Addr),
      (semaphore.step f t c = some (r, t1) ∨ semaphore.post_locked t = some t1 ∨
        semaphore.post_n_locked f t k = some t1 ∨ semaphore.async_wait_locked f t op = some t1) →
      ∃ ev, t1.log = t.log ++ ev ∧ no_complete_under_lock false ev = true)) :=
  ⟨⟨⟨by decide, Or.inl (by decide)⟩, by decide⟩,
    C13_no_complete_under_lock 7 two_waiters [1, 2] ⟨by decide, Or.inl (by decide)⟩ (by decide)⟩

/-! ## C14 -/

/-- C14: from every state whose queue holds some list of nodes, whatever the
counter, `post()` and `post(1)` both return, with the same counter, the same
events appended (so the same completions in the same order), the same nodes
left in `q_` and the same `back_`. -/
theorem C14_post_is_post_one (fuel : Nat) (s : semaphore) (l : List Nat)
    (hq : queue_holds s.mem semaphore.q_ l) (hf : 2 ≤ fuel) :
    ∃ s1 s2 l1, semaphore.post s = some s1 ∧ semaphore.post_n fuel s 1 = some s2 ∧
      s1.n_ = s2.n_ ∧ s1.log = s2.log ∧ completed s1.log = completed s2.log ∧
      queue_holds s1.mem semaphore.q_ l1 ∧ queue_holds s2.mem semaphore.q_ l1 ∧
      s1.mem.back_ semaphore.q_ = s2.mem.back_ semaphore.q_ := by
  by_cases hpos : 0 < s.n_
  · refine ⟨{ s with n_ := (s.n_ + 1) % semaphore.SIZE },
      { s with n_ := (s.n_ + 1) % semaphore.SIZE }, l, ?_, ?_, rfl, rfl, rfl, hq, hq, rfl⟩
    · simp [semaphore.post, semaphore.try_post_fast_path, hpos]
    · simp [semaphore.post_n, semaphore.try_post_fast_path, hpos]
  · have hc0 : s.n_ = 0 := by omega
    have hfast : semaphore.try_post_fast_path s 1 = (false, s) := by
      simp [semaphore.try_post_fast_path, hc0]
    obtain ⟨m2, h2, h3, h4⟩ := post_n_locked_spec fuel s l 1 hq
      (by have : min 1 l.length ≤ 1 := Nat.min_le_left _ _; omega)
    have hn2 : semaphore.post_n fuel s 1 =
        some { n_ := if 0 < 1 - min 1 l.length then
                       (s.n_ + (1 - min 1 l.length)) % semaphore.SIZE else s.n_,
               mem := m2,
               log := s.log ++ [Event.lock, Event.unlock] ++
                 (l.take 1).map (fun a => Event.complete (.node a)) } := by
      simp only [semaphore.post_n, hfast]
      exact h2
    cases l with
    | nil =>
      have h0 : s.mem.next_ (.sentinel semaphore.q_) = none := hq
      refine ⟨{ n_ := 1, mem := s.mem, log := s.log ++ [.lock, .unlock] }, _, [], ?_, hn2,
        ?_, ?_, ?_, hq, h3, h4.symm⟩
      · simp [semaphore.post, hfast, semaphore.post_locked, semaphore.emit, pop_nil _ _ hq,
          queue_base.empty, h0, hc0]
      · simp [hc0]
      · simp
      · simp
    | cons a t =>
      let m1 := (s.mem.store_next (.sentinel semaphore.q_) (s.mem.next_ (.node a))).store_next
        (.node a) none
      refine ⟨{ n_ := s.n_, mem := m1, log := s.log ++ [.lock, .unlock, .complete (.node a)] },
        _, t, ?_, hn2, ?_, ?_, ?_, pop_cons_holds _ _ a t hq, by simpa using h3, ?_⟩
      · simp [semaphore.post, hfast, semaphore.post_locked, semaphore.emit, pop_cons _ _ a t hq,
          nullary_op_base.complete, m1]
      · simp
      · simp
      · simp
      · show s.mem.back_ semaphore.q_ = m2.back_ semaphore.q_
        exact h4.symm

/-- C14 with the waiters 1 and 2 queued and the counter at 0. -/
theorem C14_post_is_post_one_witness :
    (queue_holds two_waiters.mem semaphore.q_ [1, 2] ∧ 2 ≤ 2) ∧
    ∃ s1 s2 l1, semaphore.post two_waiters = some s1 ∧
      semaphore.post_n 2 two_waiters 1 = some s2 ∧
      s1.n_ = s2.n_ ∧ s1.log = s2.log ∧ completed s1.log = completed s2.log ∧
      queue_holds s1.mem semaphore.q_ l1 ∧ queue_holds s2.mem semaphore.q_ l1 ∧
      s1.mem.back_ semaphore.q_ = s2.mem.back_ semaphore.q_ :=
  ⟨by decide, C14_post_is_post_one 2 two_waiters [1, 2] (by decide) (by decide)⟩
